import Mathlib

/-!
Verification of the termsweeper board engine (src/src/termsweeper.rs).

The engine is embedded shallowly:

* `Cell` mirrors the Rust `Field` struct (`Field` names Mathlib's algebraic structure); `adjacent_mines` is a `Nat`
  (the source's `u8` never exceeds 8, so no wraparound can occur).
* The board (`Vec<Row>` of `Vec<Cell>` in the source, rectangular by
  construction: `rows` rows of `columns` fields each) is embedded as a total
  function `ℕ × ℕ → Cell` together with the `rows`/`columns` fields;
  `get_field` guards every read by the same bounds check under which the
  vector indexing of the source succeeds, and returns `none` exactly where
  the source would panic.
* The thread-local random number generator is made explicit: a `stream` of
  sampled pairs, each draw reduced into range exactly as
  `gen_range(0..rows)`/`gen_range(0..columns)` keeps draws in range.  The
  rejection-sampling loop of the lazy set-up additionally takes `fuel`
  (a bound on loop iterations) and answers `none` when the loop has not
  finished within `fuel` iterations; every other `none` of the engine marks
  an out-of-bounds access, i.e. a panic of the source.
* The flood-fill work list is a Rust `Vec` used as a stack (`pop` takes the
  last element, `append` pushes at the end).  The loop is embedded
  generically in a `pick` function choosing which work-list entry to
  process next; `pop_last` instantiates it to the source's behaviour.
-/

inductive GameState where
  | Playing : GameState
  | GameOver : GameState
  | Won : GameState
deriving DecidableEq, Repr

structure Cell where
  revealed : Bool
  marked : Bool
  is_mine : Bool
  adjacent_mines : Nat
deriving DecidableEq, Repr

/-- `Field::new`. -/
def Cell.new : Cell :=
  { revealed := false, marked := false, is_mine := false, adjacent_mines := 0 }

structure Termsweeper where
  columns : Nat
  rows : Nat
  number_of_mines : Nat
  fields_left_to_reveal : Nat
  board : ℕ × ℕ → Cell
  cursor : ℕ × ℕ
  initialized : Bool
  game_state : GameState

/-- `Termsweeper::new`: every cell starts as `Field::new`. -/
def Termsweeper.new (columns rows number_of_mines : Nat) : Termsweeper :=
  { columns := columns, rows := rows, number_of_mines := number_of_mines,
    fields_left_to_reveal := 0, board := fun _ => Cell.new, cursor := (0, 0),
    initialized := false, game_state := GameState.Playing }

/-- `Termsweeper::get_ordered_adjacent_fields`: the eight compass slots, in the
source's slot order, `none` where the source leaves the slot `None`
(`checked_sub` answers `None` at 0; `row + 1` and `column + 1` are compared
against `rows` and `columns`). -/
def get_ordered_adjacent_fields (rows columns : Nat) (location : ℕ × ℕ) :
    List (Option (ℕ × ℕ)) :=
  let row_index := location.1
  let column_index := location.2
  let r0 := if column_index ≠ 0 then some (row_index, column_index - 1) else none
  let r1 := if column_index ≠ 0 ∧ row_index ≠ 0 then
    some (row_index - 1, column_index - 1) else none
  let r2 := if column_index ≠ 0 ∧ row_index + 1 < rows then
    some (row_index + 1, column_index - 1) else none
  let r3 := if row_index ≠ 0 then some (row_index - 1, column_index) else none
  let r4 := if row_index + 1 < rows then some (row_index + 1, column_index) else none
  let r5 := if column_index + 1 < columns then some (row_index, column_index + 1) else none
  let r6 := if column_index + 1 < columns ∧ row_index ≠ 0 then
    some (row_index - 1, column_index + 1) else none
  let r7 := if column_index + 1 < columns ∧ row_index + 1 < rows then
    some (row_index + 1, column_index + 1) else none
  [r0, r1, r2, r3, r4, r5, r6, r7]

/-- `Termsweeper::get_valid_adjacent_fields`: flatten the eight slots. -/
def get_valid_adjacent_fields (rows columns : Nat) (location : ℕ × ℕ) :
    List (ℕ × ℕ) :=
  (get_ordered_adjacent_fields rows columns location).filterMap id

/-- `Termsweeper::get_field`: vector indexing panics outside
`[0, rows) × [0, columns)`; the panic is `none`. -/
def get_field (t : Termsweeper) (location : ℕ × ℕ) : Option Cell :=
  if location.1 < t.rows ∧ location.2 < t.columns then some (t.board location)
  else none

/-- Writing one cell through `get_field_mut`. -/
def set_field (t : Termsweeper) (location : ℕ × ℕ) (f : Cell) : Termsweeper :=
  { t with board := fun l => if l = location then f else t.board l }

/-- `Termsweeper::move_cursor_left`. -/
def move_cursor_left (t : Termsweeper) : Bool × Termsweeper :=
  if t.cursor.2 ≠ 0 then
    (true, { t with cursor := (t.cursor.1, t.cursor.2 - 1) })
  else (false, t)

/-- `Termsweeper::move_cursor_down`. -/
def move_cursor_down (t : Termsweeper) : Bool × Termsweeper :=
  if t.cursor.1 ≠ t.rows - 1 then
    (true, { t with cursor := (t.cursor.1 + 1, t.cursor.2) })
  else (false, t)

/-- `Termsweeper::move_cursor_up`. -/
def move_cursor_up (t : Termsweeper) : Bool × Termsweeper :=
  if t.cursor.1 ≠ 0 then
    (true, { t with cursor := (t.cursor.1 - 1, t.cursor.2) })
  else (false, t)

/-- `Termsweeper::move_cursor_right`. -/
def move_cursor_right (t : Termsweeper) : Bool × Termsweeper :=
  if t.cursor.2 ≠ t.columns - 1 then
    (true, { t with cursor := (t.cursor.1, t.cursor.2 + 1) })
  else (false, t)

/-- `Termsweeper::toggle_mark`. -/
def toggle_mark (t : Termsweeper) : Option (Bool × Termsweeper) :=
  match get_field t t.cursor with
  | none => none
  | some f =>
    if f.revealed = false then
      some (true, set_field t t.cursor { f with marked := !f.marked })
    else some (false, t)

/-- `Termsweeper::reveal_all`. -/
def reveal_all (t : Termsweeper) : Termsweeper :=
  { t with board := fun l => { t.board l with revealed := true } }

/-- The in-bounds cells of the grid. -/
def inBoundsCells (rows columns : Nat) : Finset (ℕ × ℕ) :=
  Finset.range rows ×ˢ Finset.range columns

/-- How many in-bounds cells are not yet revealed (the flood fill's
termination measure). -/
def unrevealedCount (t : Termsweeper) : Nat :=
  ((inBoundsCells t.rows t.columns).filter
    (fun l => (t.board l).revealed = false)).card

/-- How many in-bounds cells are neither mines nor revealed: the number that
`fields_left_to_reveal` is meant to track. -/
def unrevealedNonMineCount (t : Termsweeper) : Nat :=
  ((inBoundsCells t.rows t.columns).filter
    (fun l => (t.board l).revealed = false ∧ (t.board l).is_mine = false)).card

/-- How many in-bounds cells hold a mine (the realized mine count). -/
def mineCount (t : Termsweeper) : Nat :=
  ((inBoundsCells t.rows t.columns).filter (fun l => (t.board l).is_mine)).card

/-- The grid cell the `n`-th random draw yields, reduced into range the way
`gen_range(0..rows)` and `gen_range(0..columns)` bound their draws. -/
def streamCell (stream : Nat → ℕ × ℕ) (rows columns n : Nat) : ℕ × ℕ :=
  ((stream n).1 % rows, (stream n).2 % columns)

/-- A draw stream is fair when every grid cell keeps turning up: from any
point on, each in-bounds cell is drawn again.  A uniform random sampler has
this property with probability one. -/
def FairStream (stream : Nat → ℕ × ℕ) (rows columns : Nat) : Prop :=
  ∀ n (c : ℕ × ℕ), c.1 < rows → c.2 < columns →
    ∃ k, streamCell stream rows columns (n + k) = c

/-- The cells the sampling loop may accept: in bounds, not the cursor, not
in the safe zone. -/
def eligibleCells (rows columns : Nat) (cursor : ℕ × ℕ)
    (va : List (ℕ × ℕ)) : Finset (ℕ × ℕ) :=
  (inBoundsCells rows columns).filter (fun c => c ≠ cursor ∧ c ∉ va)

theorem unrevealedCount_set_revealed_lt (t : Termsweeper) (location : ℕ × ℕ)
    (f : Cell) (hf : f.revealed = true)
    (h1 : location.1 < t.rows) (h2 : location.2 < t.columns)
    (hu : (t.board location).revealed = false) :
    unrevealedCount (set_field t location f) < unrevealedCount t := by
  have hmem : location ∈ (inBoundsCells t.rows t.columns).filter
      (fun l => (t.board l).revealed = false) := by
    simp [inBoundsCells, Finset.mem_filter, Finset.mem_product, h1, h2, hu]
  have hset : (inBoundsCells t.rows t.columns).filter
      (fun l => ((set_field t location f).board l).revealed = false) =
      ((inBoundsCells t.rows t.columns).filter
        (fun l => (t.board l).revealed = false)).erase location := by
    ext l
    by_cases hl : l = location
    · subst hl
      simp [set_field, Finset.mem_erase, hf]
    · simp [set_field, Finset.mem_erase, Finset.mem_filter, hl]
  calc unrevealedCount (set_field t location f)
      = (((inBoundsCells t.rows t.columns).filter
          (fun l => (t.board l).revealed = false)).erase location).card := by
        simp only [unrevealedCount, set_field]
        rw [← hset]
        rfl
    _ < _ := by
        rw [Finset.card_erase_of_mem hmem]
        exact Nat.sub_lt (Finset.card_pos.mpr ⟨location, hmem⟩) Nat.one_pos

/-- The flood-fill loop of `Termsweeper::reveal`, generic in which work-list
entry is processed next; the `pick` choice is clamped into range.  ``none``
marks an out-of-bounds read (a panic of the source). -/
def floodPick (pick : List (ℕ × ℕ) → Nat) (t : Termsweeper) (wl : List (ℕ × ℕ)) :
    Option Termsweeper :=
  match wl with
  | [] => some t
  | w :: ws =>
    let i := min (pick (w :: ws)) ws.length
    let location := (w :: ws).getD i (0, 0)
    let rest := (w :: ws).eraseIdx i
    match hget : get_field t location with
    | none => none
    | some f =>
      if hrev : f.revealed = true then floodPick pick t rest
      else
        let t1 := set_field t location { f with revealed := true }
        let t2 := { t1 with fields_left_to_reveal := t1.fields_left_to_reveal - 1 }
        if f.adjacent_mines = 0 then
          floodPick pick t2 (rest ++ get_valid_adjacent_fields t.rows t.columns location)
        else
          floodPick pick t2 rest
termination_by (unrevealedCount t, wl.length)
decreasing_by
  · apply Prod.Lex.right
    simp [List.length_eraseIdx, Nat.lt_succ_iff, Nat.min_le_right]
  · apply Prod.Lex.left
    have hb : location.1 < t.rows ∧ location.2 < t.columns := by
      by_contra hc
      simp [get_field, hc] at hget
    have hbo : (t.board location).revealed = false := by
      have : t.board location = f := by
        simp [get_field, hb] at hget
        exact hget
      simp [this, Bool.not_eq_true] at hrev ⊢
      exact hrev
    exact unrevealedCount_set_revealed_lt t location _ rfl hb.1 hb.2 hbo
  · apply Prod.Lex.left
    have hb : location.1 < t.rows ∧ location.2 < t.columns := by
      by_contra hc
      simp [get_field, hc] at hget
    have hbo : (t.board location).revealed = false := by
      have : t.board location = f := by
        simp [get_field, hb] at hget
        exact hget
      simp [this, Bool.not_eq_true] at hrev ⊢
      exact hrev
    exact unrevealedCount_set_revealed_lt t location _ rfl hb.1 hb.2 hbo

/-- `Vec::pop` takes the last work-list entry. -/
def pop_last (wl : List (ℕ × ℕ)) : Nat := wl.length - 1

/-- The body of `Termsweeper::reveal` after the lazy set-up, generic in the
work-list order.  The source re-reads the cursor cell after setting
`revealed`; that write changes none of the re-read fields, so `f` itself is
used. -/
def reveal_core_with (pick : List (ℕ × ℕ) → Nat) (t : Termsweeper) :
    Option (Bool × Termsweeper) :=
  match get_field t t.cursor with
  | none => none
  | some f =>
    if f.marked = false ∧ f.revealed = false then
      let t1 := set_field t t.cursor { f with revealed := true }
      if f.is_mine then
        some (true, reveal_all { t1 with game_state := GameState.GameOver })
      else
        let t2 := { t1 with fields_left_to_reveal := t1.fields_left_to_reveal - 1 }
        match (if f.adjacent_mines = 0 then
            floodPick pick t2 (get_valid_adjacent_fields t.rows t.columns t.cursor)
          else some t2) with
        | none => none
        | some t3 =>
          if t3.fields_left_to_reveal = 0 then
            some (true, reveal_all { t3 with game_state := GameState.Won })
          else some (true, t3)
    else some (false, t)

/-- The `while i < self.number_of_mines` sampling loop: `stream` supplies the
draws (reduced into range like `gen_range`), `acc` is `mine_locations`,
`pos` the index of the next draw, and `fuel` bounds the number of loop
iterations (`none` = the loop is still running after `fuel` iterations). -/
def place_mines_loop (stream : Nat → ℕ × ℕ) (rows columns : Nat)
    (cursor : ℕ × ℕ) (valid_adjacent : List (ℕ × ℕ)) (target : Nat) :
    Nat → Nat → List (ℕ × ℕ) → Option (List (ℕ × ℕ))
  | fuel, pos, acc =>
    if target ≤ acc.length then some acc
    else
      match fuel with
      | 0 => none
      | fuel' + 1 =>
        let row := (stream pos).1 % rows
        let column := (stream pos).2 % columns
        if (row, column) ≠ cursor ∧ (row, column) ∉ valid_adjacent ∧
            (row, column) ∉ acc then
          place_mines_loop stream rows columns cursor valid_adjacent target
            fuel' (pos + 1) (acc ++ [(row, column)])
        else
          place_mines_loop stream rows columns cursor valid_adjacent target
            fuel' (pos + 1) acc

/-- `for mine_location in mine_locations { ... is_mine = true }`. -/
def place_mines (t : Termsweeper) (locs : List (ℕ × ℕ)) : Termsweeper :=
  locs.foldl (fun s loc => set_field s loc { s.board loc with is_mine := true }) t

/-- The row-major traversal of the two nested `for` loops of the set-up. -/
def cells_list (rows columns : Nat) : List (ℕ × ℕ) :=
  (List.range rows).flatMap (fun r => (List.range columns).map (fun c => (r, c)))

/-- One cell's `adjacent_mines` tally: `+= 1` for each valid neighbour that
holds a mine. -/
def tally_adjacent_step (s : Termsweeper) (cell : ℕ × ℕ) : Termsweeper :=
  (get_valid_adjacent_fields s.rows s.columns cell).foldl
    (fun u loc =>
      if (u.board loc).is_mine then
        set_field u cell
          { u.board cell with adjacent_mines := (u.board cell).adjacent_mines + 1 }
      else u) s

/-- The nested loops that compute every cell's `adjacent_mines`. -/
def tally_adjacent (t : Termsweeper) : Termsweeper :=
  (cells_list t.rows t.columns).foldl tally_adjacent_step t

/-- `Termsweeper::initialize` (named `init_board` here): clamp the requested
mine count, set `fields_left_to_reveal`, sample the mine locations, place
them, tally `adjacent_mines`, and mark the set-up done.  On an already
set-up game it does nothing. -/
def init_board (stream : Nat → ℕ × ℕ) (fuel : Nat) (t : Termsweeper) :
    Option Termsweeper :=
  if t.initialized then some t
  else
    let valid_adjacent := get_valid_adjacent_fields t.rows t.columns t.cursor
    let max_mines := t.columns * t.rows - 1 - valid_adjacent.length
    let nm := if max_mines < t.number_of_mines then max_mines else t.number_of_mines
    match place_mines_loop stream t.rows t.columns t.cursor valid_adjacent nm
        fuel 0 [] with
    | none => none
    | some locs =>
      let t1 := { t with number_of_mines := nm,
                         fields_left_to_reveal := t.columns * t.rows - nm }
      some { tally_adjacent (place_mines t1 locs) with initialized := true }

/-- `Termsweeper::reveal`, generic in the work-list order. -/
def reveal_with (pick : List (ℕ × ℕ) → Nat) (stream : Nat → ℕ × ℕ) (fuel : Nat)
    (t : Termsweeper) : Option (Bool × Termsweeper) :=
  match init_board stream fuel t with
  | none => none
  | some t1 => reveal_core_with pick t1

/-- `Termsweeper::reveal`: the source's work list is a stack. -/
def reveal (stream : Nat → ℕ × ℕ) (fuel : Nat) (t : Termsweeper) :
    Option (Bool × Termsweeper) :=
  reveal_with pop_last stream fuel t

/-- The key codes `Termsweeper::handle_event` distinguishes; `other` stands
for every remaining `KeyCode`. -/
inductive Key where
  | char : Char → Key
  | leftArrow : Key
  | downArrow : Key
  | upArrow : Key
  | rightArrow : Key
  | enter : Key
  | other : Key
deriving DecidableEq

/-- `Termsweeper::handle_event`: the or-patterns of the source's `match` are
written as equality tests arm by arm (the patterns are disjoint, so the
first-match order is immaterial). -/
def handle_event (stream : Nat → ℕ × ℕ) (fuel : Nat) (key : Key)
    (t : Termsweeper) : Option (Bool × Termsweeper) :=
  match t.game_state with
  | GameState.Playing =>
    if key = Key.char 'h' ∨ key = Key.leftArrow then some (move_cursor_left t)
    else if key = Key.char 'j' ∨ key = Key.downArrow then some (move_cursor_down t)
    else if key = Key.char 'k' ∨ key = Key.upArrow then some (move_cursor_up t)
    else if key = Key.char 'l' ∨ key = Key.rightArrow then some (move_cursor_right t)
    else if key = Key.char 'm' ∨ key = Key.enter then toggle_mark t
    else if key = Key.char ' ' then reveal stream fuel t
    else some (false, t)
  | _ => some (false, t)

/-- One accepted command: some key event, with some random draws and enough
fuel for the sampling loop, takes `t` to `u`. -/
def GameStep (t u : Termsweeper) : Prop :=
  ∃ stream fuel key changed, handle_event stream fuel key t = some (changed, u)

/-- `u` is reachable from `t` by a sequence of accepted commands. -/
def Reachable (t u : Termsweeper) : Prop :=
  Relation.ReflTransGen GameStep t u

/-- Feeding a whole list of key events (each with its own draws and fuel). -/
def run_events : List ((Nat → ℕ × ℕ) × Nat × Key) → Termsweeper →
    Option Termsweeper
  | [], t => some t
  | e :: es, t =>
    match handle_event e.1 e.2.1 e.2.2 t with
    | none => none
    | some (_, u) => run_events es u

/-- An in-bounds cell that is not a mine and has no adjacent mines: the cells
the flood fill expands through. -/
def zero_cell (t : Termsweeper) (c : ℕ × ℕ) : Prop :=
  c.1 < t.rows ∧ c.2 < t.columns ∧ (t.board c).is_mine = false ∧
    (t.board c).adjacent_mines = 0

/-- The connected zero-adjacency region of `start`: `start` itself (when it is
a zero cell) and every zero cell joined to it through zero cells. -/
inductive ZeroReach (t : Termsweeper) (start : ℕ × ℕ) : ℕ × ℕ → Prop where
  | refl : zero_cell t start → ZeroReach t start start
  | step (c d : ℕ × ℕ) : ZeroReach t start c →
      d ∈ get_valid_adjacent_fields t.rows t.columns c → zero_cell t d →
      ZeroReach t start d

/-- The region of `start` together with its boundary: the zero-adjacency
region and every valid neighbour of a region cell. -/
def FloodSet (t : Termsweeper) (start : ℕ × ℕ) (d : ℕ × ℕ) : Prop :=
  ZeroReach t start d ∨
    ∃ c, ZeroReach t start c ∧ d ∈ get_valid_adjacent_fields t.rows t.columns c

/-- Every in-bounds cell's `adjacent_mines` equals the number of mines among
its valid neighbours. -/
def mines_consistent (t : Termsweeper) : Prop :=
  ∀ c ∈ inBoundsCells t.rows t.columns,
    (t.board c).adjacent_mines =
      ((get_valid_adjacent_fields t.rows t.columns c).filter
        (fun l => (t.board l).is_mine)).length

/-- Every revealed zero cell already has all its valid neighbours revealed
(the state the flood fill leaves behind). -/
def flood_closed (t : Termsweeper) : Prop :=
  ∀ c ∈ inBoundsCells t.rows t.columns,
    (t.board c).revealed = true → (t.board c).is_mine = false →
    (t.board c).adjacent_mines = 0 →
    ∀ d ∈ get_valid_adjacent_fields t.rows t.columns c,
      (t.board d).revealed = true

/-- The state invariant every reachable game satisfies: the cursor is in
bounds; before the lazy set-up the board is blank with
`fields_left_to_reveal = 0`; after it, `adjacent_mines` is consistent, the
board is flood-closed, `fields_left_to_reveal` counts the unrevealed
non-mine cells except after a loss, and a finished game is fully
revealed. -/
def EngineInv (t : Termsweeper) : Prop :=
  t.cursor.1 < t.rows ∧ t.cursor.2 < t.columns ∧
  (t.initialized = false →
    t.fields_left_to_reveal = 0 ∧ t.game_state = GameState.Playing ∧
    ∀ c ∈ inBoundsCells t.rows t.columns,
      (t.board c).is_mine = false ∧ (t.board c).revealed = false ∧
        (t.board c).adjacent_mines = 0) ∧
  (t.initialized = true →
    mines_consistent t ∧ flood_closed t ∧
    (t.game_state ≠ GameState.GameOver →
      t.fields_left_to_reveal = unrevealedNonMineCount t) ∧
    (t.game_state ≠ GameState.Playing →
      ∀ c ∈ inBoundsCells t.rows t.columns, (t.board c).revealed = true))

/-- What the flood-fill loop guarantees, relative to the state `t` and work
list `wl` it started from: the scalar state and the cells' `marked`,
`is_mine` and `adjacent_mines` are untouched; `revealed` only grows; every
work-list cell ends revealed; every newly revealed cell satisfies `P` (the
over-approximation of what the work list can reach); the final board is
flood-closed; and the unrevealed-non-mine bookkeeping is preserved. -/
def FloodOut (t : Termsweeper) (wl : List (ℕ × ℕ)) (P : ℕ × ℕ → Prop)
    (u : Termsweeper) : Prop :=
  u.rows = t.rows ∧ u.columns = t.columns ∧ u.cursor = t.cursor ∧
  u.number_of_mines = t.number_of_mines ∧ u.initialized = t.initialized ∧
  u.game_state = t.game_state ∧
  (∀ l, (u.board l).is_mine = (t.board l).is_mine) ∧
  (∀ l, (u.board l).marked = (t.board l).marked) ∧
  (∀ l, (u.board l).adjacent_mines = (t.board l).adjacent_mines) ∧
  (∀ l, (t.board l).revealed = true → (u.board l).revealed = true) ∧
  (∀ w ∈ wl, (u.board w).revealed = true) ∧
  (∀ l, (u.board l).revealed = true → (t.board l).revealed = true ∨ P l) ∧
  flood_closed u ∧
  (t.fields_left_to_reveal = unrevealedNonMineCount t →
    u.fields_left_to_reveal = unrevealedNonMineCount u)

/-! Concrete games used as example inputs for the theorems below. -/

/-- A draw stream that yields (2,2) first, then (0,2). -/
def exStream : Nat → ℕ × ℕ := fun n => if n = 0 then (2, 2) else (0, 2)

/-- A 3×3 game asking for two mines. -/
def exGame : Termsweeper := Termsweeper.new 3 3 2

/-- `exGame` after its lazy set-up with `exStream` (mines at (2,2), (0,2)). -/
def exInit : Termsweeper := (init_board exStream 2 exGame).getD exGame

/-- A draw stream that always yields the origin. -/
def oneStream : Nat → ℕ × ℕ := fun _ => (0, 0)

/-- The 1×1 game with no mines. -/
def oneGame : Termsweeper := Termsweeper.new 1 1 0

/-- The 1×1 game directly after its lazy set-up. -/
def oneInit : Termsweeper :=
  { columns := 1, rows := 1, number_of_mines := 0, fields_left_to_reveal := 1,
    board := fun _ => Cell.new, cursor := (0, 0), initialized := true,
    game_state := GameState.Playing }

/-- A set-up 1×2 game whose cursor sits on the mine at (0,1). -/
def mineGame : Termsweeper :=
  { columns := 2, rows := 1, number_of_mines := 1, fields_left_to_reveal := 1,
    board := fun l => if l = (0, 1) then { Cell.new with is_mine := true }
      else { Cell.new with adjacent_mines := 1 },
    cursor := (0, 1), initialized := true, game_state := GameState.Playing }

/-- A set-up 1×3 game: a mine at (0,2), the cursor on the zero cell (0,0). -/
def lineGame : Termsweeper :=
  { columns := 3, rows := 1, number_of_mines := 1, fields_left_to_reveal := 2,
    board := fun l => if l = (0, 2) then { Cell.new with is_mine := true }
      else if l = (0, 1) then { Cell.new with adjacent_mines := 1 } else Cell.new,
    cursor := (0, 0), initialized := true, game_state := GameState.Playing }

/-- A finished (lost) 1×1 game. -/
def overGame : Termsweeper := { oneInit with game_state := GameState.GameOver }

/-- A fresh 2×2 game whose cursor cell carries a mark. -/
def markedGame : Termsweeper :=
  set_field (Termsweeper.new 2 2 1) (0, 0) { Cell.new with marked := true }

/-- A set-up 1×1 game whose cursor cell carries a mark. -/
def markedInitGame : Termsweeper :=
  { columns := 1, rows := 1, number_of_mines := 0, fields_left_to_reveal := 1,
    board := fun _ => { Cell.new with marked := true }, cursor := (0, 0),
    initialized := true, game_state := GameState.Playing }

/-- A stream enumerating the 2×2 grid cyclically. -/
def cycleStream : Nat → ℕ × ℕ := fun n => (n / 2, n % 2)

/-- `lineGame` after its cursor cell (0,0) is revealed and the counter
dropped: the state the flood fill starts from. -/
def lineMid : Termsweeper :=
  { set_field lineGame (0, 0) { Cell.new with revealed := true } with
    fields_left_to_reveal := 1 }

/-- `lineMid` after the flood fill also reveals (0,1). -/
def lineMid2 : Termsweeper :=
  { set_field lineMid (0, 1)
      { revealed := true, marked := false, is_mine := false,
        adjacent_mines := 1 } with
    fields_left_to_reveal := 0 }

/-- The state one space key press takes `oneGame` to: everything revealed,
the game won. -/
def wonGame : Termsweeper :=
  reveal_all { set_field oneInit (0, 0) { Cell.new with revealed := true } with
    fields_left_to_reveal := 0, game_state := GameState.Won }

theorem mem_inBoundsCells {rows columns : Nat} {c : ℕ × ℕ} :
    c ∈ inBoundsCells rows columns ↔ c.1 < rows ∧ c.2 < columns := by
  simp [inBoundsCells, Finset.mem_product]

set_option maxHeartbeats 1000000 in
/-- Membership in the valid-neighbour list: exactly the in-bounds cells at
Chebyshev distance one (the eight compass directions, no wraparound). -/
theorem mem_valid_adjacent {rows columns r c : Nat} (dr dc : Nat)
    (hr : r < rows) (hc : c < columns) :
    (dr, dc) ∈ get_valid_adjacent_fields rows columns (r, c) ↔
      (dr < rows ∧ dc < columns ∧ ¬(dr = r ∧ dc = c) ∧
       (dr = r ∨ dr + 1 = r ∨ dr = r + 1) ∧ (dc = c ∨ dc + 1 = c ∨ dc = c + 1)) := by
  by_cases h1 : c = 0 <;> by_cases h2 : r = 0 <;>
    by_cases h3 : r + 1 < rows <;> by_cases h4 : c + 1 < columns <;>
    simp [get_valid_adjacent_fields, get_ordered_adjacent_fields,
      h1, h2, h3, h4, Prod.mk.injEq] <;> omega

set_option maxHeartbeats 1600000 in
theorem valid_adjacent_nodup {rows columns : Nat} (loc : ℕ × ℕ) :
    (get_valid_adjacent_fields rows columns loc).Nodup := by
  obtain ⟨r, c⟩ := loc
  by_cases h1 : c = 0 <;> by_cases h2 : r = 0 <;>
    by_cases h3 : r + 1 < rows <;> by_cases h4 : c + 1 < columns <;>
    simp [get_valid_adjacent_fields, get_ordered_adjacent_fields,
      h1, h2, h3, h4, Prod.mk.injEq] <;>
    first
    | omega
    | (split_ifs <;> simp [Prod.mk.injEq] <;> first | trivial | omega)

theorem valid_adjacent_bounds {rows columns : Nat} {loc d : ℕ × ℕ}
    (h1 : loc.1 < rows) (h2 : loc.2 < columns)
    (hd : d ∈ get_valid_adjacent_fields rows columns loc) :
    d.1 < rows ∧ d.2 < columns := by
  obtain ⟨r, c⟩ := loc
  obtain ⟨dr, dc⟩ := d
  have := (mem_valid_adjacent dr dc h1 h2).mp hd
  exact ⟨this.1, this.2.1⟩

theorem valid_adjacent_ne_self {rows columns : Nat} {loc d : ℕ × ℕ}
    (h1 : loc.1 < rows) (h2 : loc.2 < columns)
    (hd : d ∈ get_valid_adjacent_fields rows columns loc) : d ≠ loc := by
  obtain ⟨r, c⟩ := loc
  obtain ⟨dr, dc⟩ := d
  have := (mem_valid_adjacent dr dc h1 h2).mp hd
  simp only [Ne, Prod.mk.injEq]
  exact this.2.2.1

theorem valid_adjacent_length_le {rows columns : Nat} (loc : ℕ × ℕ) :
    (get_valid_adjacent_fields rows columns loc).length ≤ 8 := by
  have := List.length_filterMap_le
    (fun x => id x) (get_ordered_adjacent_fields rows columns loc)
  simpa [get_valid_adjacent_fields, get_ordered_adjacent_fields] using this

theorem board_set_field (t : Termsweeper) (loc : ℕ × ℕ) (f : Cell) (l : ℕ × ℕ) :
    (set_field t loc f).board l = if l = loc then f else t.board l := rfl

theorem getD_mem {l : List (ℕ × ℕ)} {i : Nat} (hi : i < l.length) :
    l.getD i (0, 0) ∈ l := by
  rw [List.getD_eq_getElem l (0, 0) hi]
  exact List.getElem_mem hi

theorem mem_eraseIdx_or {l : List (ℕ × ℕ)} {i : Nat} (hi : i < l.length)
    {x : ℕ × ℕ} (hx : x ∈ l) : x ∈ l.eraseIdx i ∨ x = l.getD i (0, 0) := by
  induction l generalizing i with
  | nil => cases hx
  | cons a as ih =>
    cases i with
    | zero =>
      rcases List.mem_cons.mp hx with h | h
      · exact Or.inr h
      · exact Or.inl (by simpa [List.eraseIdx] using h)
    | succ j =>
      rcases List.mem_cons.mp hx with h | h
      · exact Or.inl (by simp [List.eraseIdx, h])
      · rcases ih (by simpa using hi) h with h2 | h2
        · exact Or.inl (by simp [List.eraseIdx, h2])
        · exact Or.inr (by simpa using h2)

theorem mem_of_mem_eraseIdx {l : List (ℕ × ℕ)} {i : Nat} {x : ℕ × ℕ}
    (hx : x ∈ l.eraseIdx i) : x ∈ l := by
  induction l generalizing i with
  | nil => simpa [List.eraseIdx] using hx
  | cons a as ih =>
    cases i with
    | zero => exact List.mem_cons.mpr (Or.inr (by simpa [List.eraseIdx] using hx))
    | succ j =>
      rcases List.mem_cons.mp (by simpa [List.eraseIdx] using hx) with h | h
      · exact List.mem_cons.mpr (Or.inl h)
      · exact List.mem_cons.mpr (Or.inr (ih h))

/-- Revealing one unrevealed non-mine cell lowers the unrevealed-non-mine
count by exactly one (the cell's other fields may change arbitrarily as long
as `is_mine` stays `false`). -/
theorem unrevealedNonMineCount_set_revealed (t : Termsweeper) (loc : ℕ × ℕ)
    (f : Cell) (hf : f.revealed = true)
    (h1 : loc.1 < t.rows) (h2 : loc.2 < t.columns)
    (hu : (t.board loc).revealed = false) (hm : (t.board loc).is_mine = false) :
    unrevealedNonMineCount t = unrevealedNonMineCount (set_field t loc f) + 1 := by
  have hmem : loc ∈ (inBoundsCells t.rows t.columns).filter
      (fun l => (t.board l).revealed = false ∧ (t.board l).is_mine = false) := by
    simp [mem_inBoundsCells, Finset.mem_filter, h1, h2, hu, hm]
  have hset : (inBoundsCells t.rows t.columns).filter
      (fun l => ((set_field t loc f).board l).revealed = false ∧
        ((set_field t loc f).board l).is_mine = false) =
      ((inBoundsCells t.rows t.columns).filter
        (fun l => (t.board l).revealed = false ∧ (t.board l).is_mine = false)).erase loc := by
    ext l
    by_cases hl : l = loc
    · subst hl
      simp [set_field, Finset.mem_erase, hf]
    · simp [set_field, Finset.mem_erase, Finset.mem_filter, hl]
  have : unrevealedNonMineCount (set_field t loc f) =
      (((inBoundsCells t.rows t.columns).filter
        (fun l => (t.board l).revealed = false ∧ (t.board l).is_mine = false)).erase loc).card := by
    simp only [unrevealedNonMineCount, set_field]
    rw [← hset]
    rfl
  rw [this, Finset.card_erase_of_mem hmem]
  have hpos : 0 < ((inBoundsCells t.rows t.columns).filter
      (fun l => (t.board l).revealed = false ∧ (t.board l).is_mine = false)).card :=
    Finset.card_pos.mpr ⟨loc, hmem⟩
  simp only [unrevealedNonMineCount]
  omega

/-- `mines_consistent` only looks at the grid size and the cells' `is_mine`
and `adjacent_mines`, so it transfers along a state that keeps those. -/
theorem mines_consistent_transfer {t u : Termsweeper}
    (hrows : u.rows = t.rows) (hcols : u.columns = t.columns)
    (hmine : ∀ l, (u.board l).is_mine = (t.board l).is_mine)
    (hadj : ∀ l, (u.board l).adjacent_mines = (t.board l).adjacent_mines)
    (h : mines_consistent t) : mines_consistent u := by
  intro c hc
  rw [mem_inBoundsCells, hrows, hcols] at hc
  have := h c (mem_inBoundsCells.mpr hc)
  rw [hadj, hrows, hcols, this]
  congr 1
  apply List.filter_congr
  intro d _
  rw [hmine]

theorem floodPick_nil (pick : List (ℕ × ℕ) → Nat) (t : Termsweeper) :
    floodPick pick t [] = some t := by
  rw [floodPick]

theorem floodPick_skip (pick : List (ℕ × ℕ) → Nat) (t : Termsweeper)
    (w : ℕ × ℕ) (ws : List (ℕ × ℕ)) (f : Cell)
    (hget : get_field t ((w :: ws).getD (min (pick (w :: ws)) ws.length) (0, 0)) = some f)
    (hrev : f.revealed = true) :
    floodPick pick t (w :: ws) =
      floodPick pick t ((w :: ws).eraseIdx (min (pick (w :: ws)) ws.length)) := by
  rw [floodPick]
  split
  · next heq => rw [hget] at heq; cases heq
  · next f2 heq =>
    rw [hget] at heq
    cases heq
    simp [hrev]

theorem floodPick_reveal (pick : List (ℕ × ℕ) → Nat) (t : Termsweeper)
    (w : ℕ × ℕ) (ws : List (ℕ × ℕ)) (f : Cell)
    (hget : get_field t ((w :: ws).getD (min (pick (w :: ws)) ws.length) (0, 0)) = some f)
    (hrev : f.revealed = false) :
    floodPick pick t (w :: ws) =
      floodPick pick
        { set_field t ((w :: ws).getD (min (pick (w :: ws)) ws.length) (0, 0))
            { f with revealed := true } with
          fields_left_to_reveal := t.fields_left_to_reveal - 1 }
        (if f.adjacent_mines = 0 then
          (w :: ws).eraseIdx (min (pick (w :: ws)) ws.length) ++
            get_valid_adjacent_fields t.rows t.columns
              ((w :: ws).getD (min (pick (w :: ws)) ws.length) (0, 0))
        else (w :: ws).eraseIdx (min (pick (w :: ws)) ws.length)) := by
  rw [floodPick]
  split
  · next heq => rw [hget] at heq; cases heq
  · next f2 heq =>
    rw [hget] at heq
    cases heq
    by_cases hadj : f.adjacent_mines = 0 <;> simp [hrev, hadj, set_field]

theorem floodPick_spec (pick : List (ℕ × ℕ) → Nat) (t : Termsweeper)
    (wl : List (ℕ × ℕ)) : ∀ (P : ℕ × ℕ → Prop),
    (∀ w ∈ wl, w.1 < t.rows ∧ w.2 < t.columns) →
    (∀ w ∈ wl, (t.board w).is_mine = false) →
    mines_consistent t →
    (∀ w ∈ wl, P w) →
    (∀ c, P c → (t.board c).is_mine = false → (t.board c).adjacent_mines = 0 →
      ∀ d ∈ get_valid_adjacent_fields t.rows t.columns c, P d) →
    (∀ c, c.1 < t.rows → c.2 < t.columns → (t.board c).revealed = true →
      (t.board c).is_mine = false → (t.board c).adjacent_mines = 0 →
      ∀ d ∈ get_valid_adjacent_fields t.rows t.columns c,
        (t.board d).revealed = true ∨ d ∈ wl) →
    ∃ u, floodPick pick t wl = some u ∧ FloodOut t wl P u := by
  induction t, wl using floodPick.induct pick with
  | case1 t =>
    intro P hwb hwm hcons hP hPstep hcl
    refine ⟨t, floodPick_nil pick t, rfl, rfl, rfl, rfl, rfl, rfl,
      fun l => rfl, fun l => rfl, fun l => rfl, fun l h => h,
      fun w hw => absurd hw (List.not_mem_nil w), fun l h => Or.inl h, ?_, fun h => h⟩
    intro c hc h1 h2 h3 d hd
    rcases hcl c (mem_inBoundsCells.mp hc).1 (mem_inBoundsCells.mp hc).2 h1 h2 h3 d hd with
      h | h
    · exact h
    · exact absurd h (List.not_mem_nil d)
  | case2 t w ws i location hget =>
    intro P hwb hwm hcons hP hPstep hcl
    exfalso
    have hi : i < (w :: ws).length := by
      simp only [List.length_cons, i]
      exact Nat.lt_succ_of_le (Nat.min_le_right _ _)
    have hloc : location ∈ w :: ws := getD_mem hi
    have := hwb location hloc
    simp [get_field, this.1, this.2] at hget
  | case3 t w ws i location rest f hget hrev IH =>
    intro P hwb hwm hcons hP hPstep hcl
    have hi : i < (w :: ws).length := by
      simp only [List.length_cons, i]
      exact Nat.lt_succ_of_le (Nat.min_le_right _ _)
    have hloc : location ∈ w :: ws := getD_mem hi
    have hlb := hwb location hloc
    have hbe : t.board location = f := by
      rw [get_field, if_pos ⟨hlb.1, hlb.2⟩] at hget
      exact Option.some.inj hget
    obtain ⟨u, hu, o1, o2, o3, o4, o5, o6, o7, o8, o9, o10, o11, o12, o13, o14⟩ :=
      IH P (fun x hx => hwb x (mem_of_mem_eraseIdx hx))
        (fun x hx => hwm x (mem_of_mem_eraseIdx hx)) hcons
        (fun x hx => hP x (mem_of_mem_eraseIdx hx)) hPstep
        (fun c hc1 hc2 hc3 hc4 hc5 d hd => by
          rcases hcl c hc1 hc2 hc3 hc4 hc5 d hd with h | h
          · exact Or.inl h
          · rcases mem_eraseIdx_or hi h with h2 | h2
            · exact Or.inr h2
            · subst h2
              exact Or.inl (hbe ▸ hrev))
    refine ⟨u, ?_, o1, o2, o3, o4, o5, o6, o7, o8, o9, o10, ?_, o12, o13, o14⟩
    · rw [floodPick_skip pick t w ws f hget hrev]
      exact hu
    · intro x hx
      rcases mem_eraseIdx_or hi hx with h2 | h2
      · exact o11 x h2
      · rw [h2]
        exact o10 location (by rw [hbe]; exact hrev)
  | case4 t w ws i location rest f hget hrev t1 t2 hadj IH =>
    intro P hwb hwm hcons hP hPstep hcl
    have hi : i < (w :: ws).length := by
      simp only [List.length_cons, i]
      exact Nat.lt_succ_of_le (Nat.min_le_right _ _)
    have hloc : location ∈ w :: ws := getD_mem hi
    have hlb := hwb location hloc
    have hbe : t.board location = f := by
      rw [get_field, if_pos ⟨hlb.1, hlb.2⟩] at hget
      exact Option.some.inj hget
    have hrev2 : f.revealed = false := by
      simpa using hrev
    -- pointwise description of t2's board
    have hpt : ∀ l, t2.board l =
        if l = location then { f with revealed := true } else t.board l := by
      intro l
      rfl
    have hmine2 : ∀ l, (t2.board l).is_mine = (t.board l).is_mine := by
      intro l
      rw [hpt]
      by_cases hl : l = location <;> simp [hl, hbe]
    have hmarked2 : ∀ l, (t2.board l).marked = (t.board l).marked := by
      intro l
      rw [hpt]
      by_cases hl : l = location <;> simp [hl, hbe]
    have hadj2 : ∀ l, (t2.board l).adjacent_mines = (t.board l).adjacent_mines := by
      intro l
      rw [hpt]
      by_cases hl : l = location <;> simp [hl, hbe]
    have hmono2 : ∀ l, (t.board l).revealed = true → (t2.board l).revealed = true := by
      intro l h
      rw [hpt]
      by_cases hl : l = location <;> simp [hl, h]
    have hrows2 : t2.rows = t.rows := rfl
    have hcols2 : t2.columns = t.columns := rfl
    have hlocrev : (t2.board location).revealed = true := by
      rw [hpt]
      simp
    -- the neighbours of `location` hold no mines: its tally is 0
    have hnbm : ∀ d ∈ get_valid_adjacent_fields t.rows t.columns location,
        (t.board d).is_mine = false := by
      intro d hd
      have := hcons location (mem_inBoundsCells.mpr ⟨hlb.1, hlb.2⟩)
      rw [hbe, hadj] at this
      have hnil : (get_valid_adjacent_fields t.rows t.columns location).filter
          (fun l => (t.board l).is_mine) = [] :=
        List.length_eq_zero.mp this.symm
      have := List.filter_eq_nil.mp hnil d hd
      simpa using this
    have hPloc : P location := hP location hloc
    have hzloc : (t.board location).adjacent_mines = 0 := by rw [hbe]; exact hadj
    have hmloc : (t.board location).is_mine = false := hwm location hloc
    obtain ⟨u, hu, o1, o2, o3, o4, o5, o6, o7, o8, o9, o10, o11, o12, o13, o14⟩ :=
      IH P
        (fun x hx => by
          rcases List.mem_append.mp hx with h | h
          · exact hwb x (mem_of_mem_eraseIdx h)
          · exact valid_adjacent_bounds hlb.1 hlb.2 h)
        (fun x hx => by
          rw [hmine2]
          rcases List.mem_append.mp hx with h | h
          · exact hwm x (mem_of_mem_eraseIdx h)
          · exact hnbm x h)
        (mines_consistent_transfer hrows2 hcols2 hmine2 hadj2 hcons)
        (fun x hx => by
          rcases List.mem_append.mp hx with h | h
          · exact hP x (mem_of_mem_eraseIdx h)
          · exact hPstep location hPloc hmloc hzloc x h)
        (fun c hc1 hc2 hc3 d hd => by
          rw [hmine2] at hc2
          rw [hadj2] at hc3
          exact hPstep c hc1 hc2 hc3 d hd)
        (fun c hc1 hc2 hc3 hc4 hc5 d hd => by
          rw [hrows2] at hc1
          rw [hcols2] at hc2
          rw [hmine2] at hc4
          rw [hadj2] at hc5
          by_cases hcl2 : c = location
          · subst hcl2
            exact Or.inr (List.mem_append.mpr (Or.inr hd))
          · have hc3t : (t.board c).revealed = true := by
              rw [hpt, if_neg hcl2] at hc3
              exact hc3
            rcases hcl c hc1 hc2 hc3t hc4 hc5 d hd with h | h
            · exact Or.inl (hmono2 d h)
            · rcases mem_eraseIdx_or hi h with h2 | h2
              · exact Or.inr (List.mem_append.mpr (Or.inl h2))
              · rw [h2]
                exact Or.inl hlocrev)
    refine ⟨u, ?_, o1, o2, o3, o4, o5, o6,
      fun l => by rw [o7, hmine2],
      fun l => by rw [o8, hmarked2],
      fun l => by rw [o9, hadj2],
      fun l h => o10 l (hmono2 l h), ?_, ?_, o13, ?_⟩
    · rw [floodPick_reveal pick t w ws f hget hrev2, if_pos hadj]
      exact hu
    · intro x hx
      rcases mem_eraseIdx_or hi hx with h2 | h2
      · exact o11 x (List.mem_append.mpr (Or.inl h2))
      · rw [h2]
        exact o10 location hlocrev
    · intro l h
      rcases o12 l h with h2 | h2
      · by_cases hl : l = location
        · subst hl
          exact Or.inr hPloc
        · rw [hpt, if_neg hl] at h2
          exact Or.inl h2
      · exact Or.inr h2
    · intro h
      have hcount : unrevealedNonMineCount t = unrevealedNonMineCount t2 + 1 :=
        unrevealedNonMineCount_set_revealed t location { f with revealed := true }
          rfl hlb.1 hlb.2 (hbe ▸ hrev2) hmloc
      have ht2 : t2.fields_left_to_reveal = unrevealedNonMineCount t2 := by
        have : t2.fields_left_to_reveal = t.fields_left_to_reveal - 1 := rfl
        omega
      exact o14 ht2
  | case5 t w ws i location rest f hget hrev t1 t2 hadj IH =>
    intro P hwb hwm hcons hP hPstep hcl
    have hi : i < (w :: ws).length := by
      simp only [List.length_cons, i]
      exact Nat.lt_succ_of_le (Nat.min_le_right _ _)
    have hloc : location ∈ w :: ws := getD_mem hi
    have hlb := hwb location hloc
    have hbe : t.board location = f := by
      rw [get_field, if_pos ⟨hlb.1, hlb.2⟩] at hget
      exact Option.some.inj hget
    have hrev2 : f.revealed = false := by
      simpa using hrev
    have hpt : ∀ l, t2.board l =
        if l = location then { f with revealed := true } else t.board l := by
      intro l
      rfl
    have hmine2 : ∀ l, (t2.board l).is_mine = (t.board l).is_mine := by
      intro l
      rw [hpt]
      by_cases hl : l = location <;> simp [hl, hbe]
    have hmarked2 : ∀ l, (t2.board l).marked = (t.board l).marked := by
      intro l
      rw [hpt]
      by_cases hl : l = location <;> simp [hl, hbe]
    have hadj2 : ∀ l, (t2.board l).adjacent_mines = (t.board l).adjacent_mines := by
      intro l
      rw [hpt]
      by_cases hl : l = location <;> simp [hl, hbe]
    have hmono2 : ∀ l, (t.board l).revealed = true → (t2.board l).revealed = true := by
      intro l h
      rw [hpt]
      by_cases hl : l = location <;> simp [hl, h]
    have hrows2 : t2.rows = t.rows := rfl
    have hcols2 : t2.columns = t.columns := rfl
    have hlocrev : (t2.board location).revealed = true := by
      rw [hpt]
      simp
    have hmloc : (t.board location).is_mine = false := hwm location hloc
    obtain ⟨u, hu, o1, o2, o3, o4, o5, o6, o7, o8, o9, o10, o11, o12, o13, o14⟩ :=
      IH P
        (fun x hx => hwb x (mem_of_mem_eraseIdx hx))
        (fun x hx => by
          rw [hmine2]
          exact hwm x (mem_of_mem_eraseIdx hx))
        (mines_consistent_transfer hrows2 hcols2 hmine2 hadj2 hcons)
        (fun x hx => hP x (mem_of_mem_eraseIdx hx))
        (fun c hc1 hc2 hc3 d hd => by
          rw [hmine2] at hc2
          rw [hadj2] at hc3
          exact hPstep c hc1 hc2 hc3 d hd)
        (fun c hc1 hc2 hc3 hc4 hc5 d hd => by
          rw [hrows2] at hc1
          rw [hcols2] at hc2
          rw [hmine2] at hc4
          rw [hadj2] at hc5
          by_cases hcl2 : c = location
          · subst hcl2
            rw [hbe] at hc5
            exact absurd hc5 hadj
          · have hc3t : (t.board c).revealed = true := by
              rw [hpt, if_neg hcl2] at hc3
              exact hc3
            rcases hcl c hc1 hc2 hc3t hc4 hc5 d hd with h | h
            · exact Or.inl (hmono2 d h)
            · rcases mem_eraseIdx_or hi h with h2 | h2
              · exact Or.inr h2
              · rw [h2]
                exact Or.inl hlocrev)
    refine ⟨u, ?_, o1, o2, o3, o4, o5, o6,
      fun l => by rw [o7, hmine2],
      fun l => by rw [o8, hmarked2],
      fun l => by rw [o9, hadj2],
      fun l h => o10 l (hmono2 l h), ?_, ?_, o13, ?_⟩
    · rw [floodPick_reveal pick t w ws f hget hrev2, if_neg hadj]
      exact hu
    · intro x hx
      rcases mem_eraseIdx_or hi hx with h2 | h2
      · exact o11 x h2
      · rw [h2]
        exact o10 location hlocrev
    · intro l h
      rcases o12 l h with h2 | h2
      · by_cases hl : l = location
        · subst hl
          exact Or.inr (hP location hloc)
        · rw [hpt, if_neg hl] at h2
          exact Or.inl h2
      · exact Or.inr h2
    · intro h
      have hcount : unrevealedNonMineCount t = unrevealedNonMineCount t2 + 1 :=
        unrevealedNonMineCount_set_revealed t location { f with revealed := true }
          rfl hlb.1 hlb.2 (hbe ▸ hrev2) hmloc
      have ht2 : t2.fields_left_to_reveal = unrevealedNonMineCount t2 := by
        have : t2.fields_left_to_reveal = t.fields_left_to_reveal - 1 := rfl
        omega
      exact o14 ht2

theorem reveal_all_board (t : Termsweeper) (l : ℕ × ℕ) :
    ((reveal_all t).board l) = { t.board l with revealed := true } := rfl

theorem unrevealedNonMineCount_reveal_all (t : Termsweeper) :
    unrevealedNonMineCount (reveal_all t) = 0 := by
  simp [unrevealedNonMineCount, reveal_all, Finset.filter_eq_empty_iff]

theorem unrevealedCount_reveal_all (t : Termsweeper) :
    unrevealedCount (reveal_all t) = 0 := by
  simp [unrevealedCount, reveal_all, Finset.filter_eq_empty_iff]

/-- `place_mines` leaves every scalar component alone and only turns
`is_mine` on at the listed locations. -/
theorem place_mines_statics (t : Termsweeper) (locs : List (ℕ × ℕ)) :
    (place_mines t locs).rows = t.rows ∧
    (place_mines t locs).columns = t.columns ∧
    (place_mines t locs).cursor = t.cursor ∧
    (place_mines t locs).number_of_mines = t.number_of_mines ∧
    (place_mines t locs).fields_left_to_reveal = t.fields_left_to_reveal ∧
    (place_mines t locs).initialized = t.initialized ∧
    (place_mines t locs).game_state = t.game_state := by
  induction locs generalizing t with
  | nil => exact ⟨rfl, rfl, rfl, rfl, rfl, rfl, rfl⟩
  | cons a as ih =>
    simpa [place_mines, List.foldl_cons] using
      ih (set_field t a { t.board a with is_mine := true })

theorem place_mines_board (t : Termsweeper) (locs : List (ℕ × ℕ)) (l : ℕ × ℕ) :
    (place_mines t locs).board l =
      if l ∈ locs then { t.board l with is_mine := true } else t.board l := by
  induction locs generalizing t with
  | nil => simp [place_mines]
  | cons a as ih =>
    have step : place_mines t (a :: as) =
        place_mines (set_field t a { t.board a with is_mine := true }) as := rfl
    rw [step, ih]
    by_cases h1 : l ∈ as
    · by_cases h2 : l = a <;> simp [set_field, h1, h2]
    · by_cases h2 : l = a <;> simp [set_field, h1, h2]

/-- One cell's tally step: only that cell's `adjacent_mines` moves, by the
number of its valid neighbours that hold mines. -/
theorem tally_adjacent_step_board (s : Termsweeper) (cell : ℕ × ℕ) :
    ((tally_adjacent_step s cell).board cell =
      { s.board cell with adjacent_mines := (s.board cell).adjacent_mines +
          ((get_valid_adjacent_fields s.rows s.columns cell).filter
            (fun l => (s.board l).is_mine)).length }) ∧
    (∀ l, l ≠ cell → (tally_adjacent_step s cell).board l = s.board l) := by
  unfold tally_adjacent_step
  generalize get_valid_adjacent_fields s.rows s.columns cell = ns
  induction ns generalizing s with
  | nil =>
    refine ⟨?_, fun l hl => rfl⟩
    simp
  | cons a as ih =>
    simp only [List.foldl_cons, List.filter_cons]
    by_cases hm : (s.board a).is_mine
    · have hred : (if (s.board a).is_mine = true then
          set_field s cell { s.board cell with
            adjacent_mines := (s.board cell).adjacent_mines + 1 }
        else s) = set_field s cell { s.board cell with
            adjacent_mines := (s.board cell).adjacent_mines + 1 } := by
        simp [hm]
      rw [hred]
      set s1 := set_field s cell { s.board cell with
        adjacent_mines := (s.board cell).adjacent_mines + 1 } with hs1
      have h1 := ih s1
      have hbcell : s1.board cell = { s.board cell with
          adjacent_mines := (s.board cell).adjacent_mines + 1 } := by
        simp [hs1, set_field]
      have hbo : ∀ l, (s1.board l).is_mine = (s.board l).is_mine := by
        intro l
        by_cases hl : l = cell <;> simp [hs1, set_field, hl]
      have hfil : as.filter (fun l => (s1.board l).is_mine) =
          as.filter (fun l => (s.board l).is_mine) := by
        apply List.filter_congr
        intro x _
        rw [hbo]
      rw [hfil] at h1
      constructor
      · rw [h1.1, hbcell]
        simp [hm]
        omega
      · intro l hl
        rw [h1.2 l hl]
        simp [hs1, set_field, hl]
    · have hred : (if (s.board a).is_mine = true then
          set_field s cell { s.board cell with
            adjacent_mines := (s.board cell).adjacent_mines + 1 }
        else s) = s := by
        simp [hm]
      rw [hred]
      have h1 := ih s
      constructor
      · rw [h1.1]
        simp [hm]
      · exact h1.2

theorem tally_adjacent_step_statics (s : Termsweeper) (cell : ℕ × ℕ) :
    (tally_adjacent_step s cell).rows = s.rows ∧
    (tally_adjacent_step s cell).columns = s.columns ∧
    (tally_adjacent_step s cell).cursor = s.cursor ∧
    (tally_adjacent_step s cell).number_of_mines = s.number_of_mines ∧
    (tally_adjacent_step s cell).fields_left_to_reveal = s.fields_left_to_reveal ∧
    (tally_adjacent_step s cell).initialized = s.initialized ∧
    (tally_adjacent_step s cell).game_state = s.game_state := by
  unfold tally_adjacent_step
  generalize get_valid_adjacent_fields s.rows s.columns cell = ns
  induction ns generalizing s with
  | nil => exact ⟨rfl, rfl, rfl, rfl, rfl, rfl, rfl⟩
  | cons a as ih =>
    simp only [List.foldl_cons]
    by_cases hm : (s.board a).is_mine = true
    · simpa [hm] using ih (set_field s cell { s.board cell with
        adjacent_mines := (s.board cell).adjacent_mines + 1 })
    · simpa [hm] using ih s

theorem mem_cells_list {rows columns : Nat} {c : ℕ × ℕ} :
    c ∈ cells_list rows columns ↔ c.1 < rows ∧ c.2 < columns := by
  obtain ⟨r0, c0⟩ := c
  simp [cells_list]

theorem cells_list_nodup (rows columns : Nat) :
    (cells_list rows columns).Nodup := by
  refine List.nodup_flatMap.mpr ⟨?_, ?_⟩
  · intro r _
    exact (List.nodup_range columns).map (fun a b hab => by simpa using hab)
  · refine List.Pairwise.imp ?_ (List.pairwise_lt_range rows)
    intro a b hab x hx1 hx2
    simp only [Function.onFun, List.mem_map, List.mem_range] at hx1 hx2
    obtain ⟨a1, _, ha1⟩ := hx1
    obtain ⟨a2, _, ha2⟩ := hx2
    have := ha1.trans ha2.symm
    have h2 := ((Prod.mk.injEq _ _ _ _).mp this).1
    omega

/-- Folding the per-cell tally over a duplicate-free cell list: each listed
cell's `adjacent_mines` grows by its neighbour-mine count, everything else is
untouched. -/
theorem tally_foldl_spec (cs : List (ℕ × ℕ)) (t : Termsweeper) (hnd : cs.Nodup) :
    (cs.foldl tally_adjacent_step t).rows = t.rows ∧
    (cs.foldl tally_adjacent_step t).columns = t.columns ∧
    (cs.foldl tally_adjacent_step t).cursor = t.cursor ∧
    (cs.foldl tally_adjacent_step t).number_of_mines = t.number_of_mines ∧
    (cs.foldl tally_adjacent_step t).fields_left_to_reveal = t.fields_left_to_reveal ∧
    (cs.foldl tally_adjacent_step t).initialized = t.initialized ∧
    (cs.foldl tally_adjacent_step t).game_state = t.game_state ∧
    ∀ l, (cs.foldl tally_adjacent_step t).board l =
      if l ∈ cs then
        { t.board l with adjacent_mines := (t.board l).adjacent_mines +
            ((get_valid_adjacent_fields t.rows t.columns l).filter
              (fun d => (t.board d).is_mine)).length }
      else t.board l := by
  induction cs generalizing t with
  | nil =>
    exact ⟨rfl, rfl, rfl, rfl, rfl, rfl, rfl, fun l => by simp⟩
  | cons a as ih =>
    have hnd2 : as.Nodup := hnd.of_cons
    have hna : a ∉ as := by
      simp [List.nodup_cons] at hnd
      exact hnd.1
    simp only [List.foldl_cons]
    set t1 := tally_adjacent_step t a with ht1
    have hstep := tally_adjacent_step_board t a
    have hstat := tally_adjacent_step_statics t a
    have hmine1 : ∀ l, (t1.board l).is_mine = (t.board l).is_mine := by
      intro l
      by_cases hl : l = a
      · subst hl
        rw [hstep.1]
      · rw [hstep.2 l hl]
    obtain ⟨i1, i2, i3, i4, i5, i6, i7, i8⟩ := ih t1 hnd2
    refine ⟨by rw [i1, hstat.1], by rw [i2, hstat.2.1], by rw [i3, hstat.2.2.1],
      by rw [i4, hstat.2.2.2.1], by rw [i5, hstat.2.2.2.2.1],
      by rw [i6, hstat.2.2.2.2.2.1], by rw [i7, hstat.2.2.2.2.2.2], ?_⟩
    intro l
    rw [i8 l]
    have hrows1 : t1.rows = t.rows := hstat.1
    have hcols1 : t1.columns = t.columns := hstat.2.1
    have hfil : ∀ x, (get_valid_adjacent_fields t1.rows t1.columns x).filter
        (fun d => (t1.board d).is_mine) =
        (get_valid_adjacent_fields t.rows t.columns x).filter
        (fun d => (t.board d).is_mine) := by
      intro x
      rw [hrows1, hcols1]
      apply List.filter_congr
      intro d _
      rw [hmine1]
    by_cases hl : l ∈ as
    · have hlna : l ≠ a := fun h => hna (h ▸ hl)
      rw [hfil]
      simp only [hl, if_true, List.mem_cons, hlna, or_true]
      rw [hstep.2 l hlna]
    · by_cases hla : l = a
      · subst hla
        simp only [hl, if_false, List.mem_cons, true_or, if_true]
        rw [hstep.1]
      · simp only [hl, if_false, List.mem_cons, hla, false_or]
        rw [hstep.2 l hla]

/-- What a successful sampling loop guarantees about its output. -/
theorem place_mines_loop_spec (stream : Nat → ℕ × ℕ) (rows columns : Nat)
    (cursor : ℕ × ℕ) (va : List (ℕ × ℕ)) (target : Nat)
    (hrows : 0 < rows) (hcols : 0 < columns) :
    ∀ fuel pos acc locs,
    place_mines_loop stream rows columns cursor va target fuel pos acc = some locs →
    (acc.length ≤ target → locs.length = target) ∧
    (∀ l ∈ locs, l ∈ acc ∨
      (l.1 < rows ∧ l.2 < columns ∧ l ≠ cursor ∧ l ∉ va)) ∧
    (acc.Nodup → locs.Nodup) := by
  intro fuel
  induction fuel with
  | zero =>
    intro pos acc locs h
    rw [place_mines_loop] at h
    by_cases hle : target ≤ acc.length
    · rw [if_pos hle] at h
      cases h
      exact ⟨fun h2 => le_antisymm h2 hle, fun l hl => Or.inl hl, fun h2 => h2⟩
    · rw [if_neg hle] at h
      cases h
  | succ fuel ih =>
    intro pos acc locs h
    rw [place_mines_loop] at h
    by_cases hle : target ≤ acc.length
    · rw [if_pos hle] at h
      cases h
      exact ⟨fun h2 => le_antisymm h2 hle, fun l hl => Or.inl hl, fun h2 => h2⟩
    · rw [if_neg hle] at h
      by_cases hok : ((stream pos).1 % rows, (stream pos).2 % columns) ≠ cursor ∧
          ((stream pos).1 % rows, (stream pos).2 % columns) ∉ va ∧
          ((stream pos).1 % rows, (stream pos).2 % columns) ∉ acc
      · rw [if_pos hok] at h
        obtain ⟨j1, j2, j3⟩ := ih (pos + 1)
          (acc ++ [((stream pos).1 % rows, (stream pos).2 % columns)]) locs h
        refine ⟨fun h2 => j1 (by simp; omega), ?_, ?_⟩
        · intro l hl
          rcases j2 l hl with h3 | h3
          · rcases List.mem_append.mp h3 with h4 | h4
            · exact Or.inl h4
            · have : l = ((stream pos).1 % rows, (stream pos).2 % columns) := by
                simpa using h4
              subst this
              exact Or.inr ⟨Nat.mod_lt _ hrows, Nat.mod_lt _ hcols, hok.1, hok.2.1⟩
          · exact Or.inr h3
        · intro h2
          apply j3
          simp [List.nodup_append, h2, hok.2.2]
      · rw [if_neg hok] at h
        obtain ⟨j1, j2, j3⟩ := ih (pos + 1) acc locs h
        exact ⟨j1, j2, j3⟩

/-- Unfold a successful lazy set-up into its pieces. -/
theorem init_board_elim {stream : Nat → ℕ × ℕ} {fuel : Nat} {t t' : Termsweeper}
    (hninit : t.initialized = false)
    (h : init_board stream fuel t = some t') :
    ∃ locs,
      place_mines_loop stream t.rows t.columns t.cursor
        (get_valid_adjacent_fields t.rows t.columns t.cursor)
        (if t.columns * t.rows - 1 -
            (get_valid_adjacent_fields t.rows t.columns t.cursor).length <
            t.number_of_mines then
          t.columns * t.rows - 1 -
            (get_valid_adjacent_fields t.rows t.columns t.cursor).length
        else t.number_of_mines) fuel 0 [] = some locs ∧
      t' = { tally_adjacent (place_mines
          { t with
            number_of_mines := if t.columns * t.rows - 1 -
                (get_valid_adjacent_fields t.rows t.columns t.cursor).length <
                t.number_of_mines then
              t.columns * t.rows - 1 -
                (get_valid_adjacent_fields t.rows t.columns t.cursor).length
            else t.number_of_mines,
            fields_left_to_reveal := t.columns * t.rows -
              (if t.columns * t.rows - 1 -
                  (get_valid_adjacent_fields t.rows t.columns t.cursor).length <
                  t.number_of_mines then
                t.columns * t.rows - 1 -
                  (get_valid_adjacent_fields t.rows t.columns t.cursor).length
              else t.number_of_mines) } locs) with initialized := true } := by
  unfold init_board at h
  rw [if_neg (by simp [hninit])] at h
  simp only [] at h
  split at h
  · cases h
  · next locs heq =>
    exact ⟨locs, heq, (Option.some.inj h).symm⟩

/-- Full description of a successful lazy set-up from a blank (pre-set-up)
board: scalars, marks and reveals are kept, the clamp bounds the realized
mine count, the safe zone is mine-free, the tally is consistent, and the
counter is set to the number of non-mine cells. -/
theorem init_board_spec {stream : Nat → ℕ × ℕ} {fuel : Nat} {t t' : Termsweeper}
    (hninit : t.initialized = false)
    (hcb1 : t.cursor.1 < t.rows) (hcb2 : t.cursor.2 < t.columns)
    (hblank : ∀ c ∈ inBoundsCells t.rows t.columns,
      (t.board c).is_mine = false ∧ (t.board c).revealed = false ∧
        (t.board c).adjacent_mines = 0)
    (h : init_board stream fuel t = some t') :
    t'.rows = t.rows ∧ t'.columns = t.columns ∧ t'.cursor = t.cursor ∧
    t'.initialized = true ∧ t'.game_state = t.game_state ∧
    (∀ l, (t'.board l).revealed = (t.board l).revealed) ∧
    (∀ l, (t'.board l).marked = (t.board l).marked) ∧
    mines_consistent t' ∧
    t'.number_of_mines ≤ t.columns * t.rows - 1 -
      (get_valid_adjacent_fields t.rows t.columns t.cursor).length ∧
    mineCount t' = t'.number_of_mines ∧
    (t'.board t.cursor).is_mine = false ∧
    (∀ d ∈ get_valid_adjacent_fields t.rows t.columns t.cursor,
      (t'.board d).is_mine = false) ∧
    t'.fields_left_to_reveal = t.columns * t.rows - t'.number_of_mines ∧
    t'.fields_left_to_reveal = unrevealedNonMineCount t' := by
  have hrows : 0 < t.rows := Nat.lt_of_le_of_lt (Nat.zero_le _) hcb1
  have hcols : 0 < t.columns := Nat.lt_of_le_of_lt (Nat.zero_le _) hcb2
  obtain ⟨locs, hpl, ht'⟩ := init_board_elim hninit h
  set nm := if t.columns * t.rows - 1 -
      (get_valid_adjacent_fields t.rows t.columns t.cursor).length <
      t.number_of_mines then
    t.columns * t.rows - 1 -
      (get_valid_adjacent_fields t.rows t.columns t.cursor).length
  else t.number_of_mines with hnm
  set t1 := { t with number_of_mines := nm,
                     fields_left_to_reveal := t.columns * t.rows - nm } with ht1
  obtain ⟨l1, l2, l3⟩ := place_mines_loop_spec stream t.rows t.columns t.cursor
    (get_valid_adjacent_fields t.rows t.columns t.cursor) nm hrows hcols
    fuel 0 [] locs hpl
  have hlen : locs.length = nm := l1 (Nat.zero_le _)
  have hmem : ∀ l ∈ locs, l.1 < t.rows ∧ l.2 < t.columns ∧ l ≠ t.cursor ∧
      l ∉ get_valid_adjacent_fields t.rows t.columns t.cursor := by
    intro l hl
    rcases l2 l hl with h2 | h2
    · exact absurd h2 (List.not_mem_nil l)
    · exact h2
  have hnd : locs.Nodup := l3 List.nodup_nil
  set u := place_mines t1 locs with hu
  have hps := place_mines_statics t1 locs
  have hurows : u.rows = t.rows := hps.1
  have hucols : u.columns = t.columns := hps.2.1
  have humine : ∀ l, (u.board l).is_mine = (if l ∈ locs then true else (t.board l).is_mine) := by
    intro l
    rw [hu, place_mines_board]
    by_cases hl : l ∈ locs <;> simp [hl]
  have hurev : ∀ l, (u.board l).revealed = (t.board l).revealed := by
    intro l
    rw [hu, place_mines_board]
    by_cases hl : l ∈ locs <;> simp [hl]
  have humark : ∀ l, (u.board l).marked = (t.board l).marked := by
    intro l
    rw [hu, place_mines_board]
    by_cases hl : l ∈ locs <;> simp [hl]
  have huadj : ∀ l, (u.board l).adjacent_mines = (t.board l).adjacent_mines := by
    intro l
    rw [hu, place_mines_board]
    by_cases hl : l ∈ locs <;> simp [hl]
  obtain ⟨f1, f2, f3, f4, f5, f6, f7, f8⟩ :=
    tally_foldl_spec (cells_list u.rows u.columns) u (cells_list_nodup _ _)
  have htt : t' = { (cells_list u.rows u.columns).foldl tally_adjacent_step u with
      initialized := true } := by
    rw [ht']
    rfl
  -- board of t' pointwise
  have htb : ∀ l, t'.board l =
      ((cells_list u.rows u.columns).foldl tally_adjacent_step u).board l := by
    intro l
    rw [htt]
  have htmine : ∀ l, (t'.board l).is_mine = (u.board l).is_mine := by
    intro l
    rw [htb l, f8 l]
    by_cases hl : l ∈ cells_list u.rows u.columns <;> simp [hl]
  have htrev : ∀ l, (t'.board l).revealed = (u.board l).revealed := by
    intro l
    rw [htb l, f8 l]
    by_cases hl : l ∈ cells_list u.rows u.columns <;> simp [hl]
  have htmark : ∀ l, (t'.board l).marked = (u.board l).marked := by
    intro l
    rw [htb l, f8 l]
    by_cases hl : l ∈ cells_list u.rows u.columns <;> simp [hl]
  have htadj : ∀ l, l.1 < t.rows → l.2 < t.columns → (t'.board l).adjacent_mines =
      (u.board l).adjacent_mines +
        ((get_valid_adjacent_fields t.rows t.columns l).filter
          (fun d => (u.board d).is_mine)).length := by
    intro l hl1 hl2
    rw [htb l, f8 l]
    have : l ∈ cells_list u.rows u.columns := by
      rw [mem_cells_list, hurows, hucols]
      exact ⟨hl1, hl2⟩
    simp only [this, if_true]
    rw [hurows, hucols]
  have hrows' : t'.rows = t.rows := by rw [htt]; exact f1.trans hurows
  have hcols' : t'.columns = t.columns := by rw [htt]; exact f2.trans hucols
  have hcur' : t'.cursor = t.cursor := by rw [htt]; exact f3.trans hps.2.2.1
  have hinit' : t'.initialized = true := by rw [htt]
  have hgs' : t'.game_state = t.game_state := by rw [htt]; exact f7.trans hps.2.2.2.2.2.2
  have hnom' : t'.number_of_mines = nm := by rw [htt]; exact f4.trans hps.2.2.2.1
  have hfltr' : t'.fields_left_to_reveal = t.columns * t.rows - nm := by
    rw [htt]
    exact f5.trans hps.2.2.2.2.1
  have hnmle : nm ≤ t.columns * t.rows - 1 -
      (get_valid_adjacent_fields t.rows t.columns t.cursor).length := by
    rw [hnm]
    split <;> omega
  -- consistency
  have hcons' : mines_consistent t' := by
    intro c hc
    rw [mem_inBoundsCells, hrows', hcols'] at hc
    rw [htadj c hc.1 hc.2, huadj c, (hblank c (mem_inBoundsCells.mpr hc)).2.2]
    rw [hrows', hcols']
    simp only [Nat.zero_add]
    congr 1
    apply List.filter_congr
    intro d _
    rw [htmine d]
  -- mine placement facts
  have hminechar : ∀ l, l.1 < t.rows → l.2 < t.columns →
      ((t'.board l).is_mine = true ↔ l ∈ locs) := by
    intro l h1 h2
    rw [htmine l, humine l]
    by_cases hl : l ∈ locs <;> simp [hl]
    exact (hblank l (mem_inBoundsCells.mpr ⟨h1, h2⟩)).1
  have hcursafe : (t'.board t.cursor).is_mine = false := by
    have := hminechar t.cursor hcb1 hcb2
    by_cases hmem2 : t.cursor ∈ locs
    · exact absurd rfl (hmem t.cursor hmem2).2.2.1
    · rw [htmine, humine]
      simp [hmem2]
      exact (hblank t.cursor (mem_inBoundsCells.mpr ⟨hcb1, hcb2⟩)).1
  have hadjsafe : ∀ d ∈ get_valid_adjacent_fields t.rows t.columns t.cursor,
      (t'.board d).is_mine = false := by
    intro d hd
    by_cases hmem2 : d ∈ locs
    · exact absurd hd (hmem d hmem2).2.2.2
    · rw [htmine, humine]
      simp [hmem2]
      have hb := valid_adjacent_bounds hcb1 hcb2 hd
      exact (hblank d (mem_inBoundsCells.mpr hb)).1
  -- counting
  have hmc : mineCount t' = locs.length := by
    have hset : (inBoundsCells t'.rows t'.columns).filter
        (fun l => (t'.board l).is_mine) = locs.toFinset := by
      ext l
      rw [Finset.mem_filter, mem_inBoundsCells, hrows', hcols', List.mem_toFinset]
      constructor
      · intro ⟨hb, hm⟩
        exact (hminechar l hb.1 hb.2).mp hm
      · intro hl
        have := hmem l hl
        exact ⟨⟨this.1, this.2.1⟩, (hminechar l this.1 this.2.1).mpr hl⟩
    rw [mineCount, hset, List.card_toFinset, hnd.dedup]
  have hcount : unrevealedNonMineCount t' = t.columns * t.rows - locs.length := by
    have hsplit : (inBoundsCells t'.rows t'.columns).filter
        (fun l => (t'.board l).revealed = false ∧ (t'.board l).is_mine = false) =
        (inBoundsCells t'.rows t'.columns) \
          ((inBoundsCells t'.rows t'.columns).filter (fun l => (t'.board l).is_mine)) := by
      ext l
      rw [Finset.mem_filter, Finset.mem_sdiff, Finset.mem_filter]
      constructor
      · intro ⟨hb, hr, hm⟩
        exact ⟨hb, fun ⟨_, hmm⟩ => by rw [hm] at hmm; cases hmm⟩
      · intro ⟨hb, hnm2⟩
        have hbb := mem_inBoundsCells.mp hb
        rw [hrows', hcols'] at hbb
        refine ⟨hb, ?_, ?_⟩
        · rw [htrev, hurev]
          exact (hblank l (mem_inBoundsCells.mpr hbb)).2.1
        · by_cases hmm : (t'.board l).is_mine
          · exact absurd ⟨hb, hmm⟩ hnm2
          · simpa using hmm
    rw [unrevealedNonMineCount, hsplit,
      Finset.card_sdiff (Finset.filter_subset _ _)]
    have h1 : (inBoundsCells t'.rows t'.columns).card = t.rows * t.columns := by
      rw [hrows', hcols', inBoundsCells, Finset.card_product]
      simp
    have h2 := hmc
    unfold mineCount at h2
    rw [h1, h2, Nat.mul_comm]
  refine ⟨hrows', hcols', hcur', hinit', hgs',
    fun l => (htrev l).trans (hurev l), fun l => (htmark l).trans (humark l),
    hcons', hnom' ▸ hnmle, hmc.trans (by rw [hlen, hnom']), hcursafe, hadjsafe,
    hfltr'.trans (by rw [hnom']), ?_⟩
  rw [hcount, hfltr', hlen]

/-- The tally pass alone makes `adjacent_mines` consistent, whatever mines
were placed, as long as every tally started from zero. -/
theorem init_board_consistent {stream : Nat → ℕ × ℕ} {fuel : Nat}
    {t t' : Termsweeper} (hninit : t.initialized = false)
    (hadj0 : ∀ c ∈ inBoundsCells t.rows t.columns,
      (t.board c).adjacent_mines = 0)
    (h : init_board stream fuel t = some t') :
    mines_consistent t' ∧ t'.rows = t.rows ∧ t'.columns = t.columns ∧
      t'.initialized = true := by
  obtain ⟨locs, hpl, ht'⟩ := init_board_elim hninit h
  set nm := if t.columns * t.rows - 1 -
      (get_valid_adjacent_fields t.rows t.columns t.cursor).length <
      t.number_of_mines then
    t.columns * t.rows - 1 -
      (get_valid_adjacent_fields t.rows t.columns t.cursor).length
  else t.number_of_mines with hnm
  set t1 := { t with number_of_mines := nm,
                     fields_left_to_reveal := t.columns * t.rows - nm } with ht1
  set u := place_mines t1 locs with hu
  have hps := place_mines_statics t1 locs
  have hurows : u.rows = t.rows := hps.1
  have hucols : u.columns = t.columns := hps.2.1
  have huadj : ∀ l, (u.board l).adjacent_mines = (t.board l).adjacent_mines := by
    intro l
    rw [hu, place_mines_board]
    by_cases hl : l ∈ locs <;> simp [hl]
  obtain ⟨f1, f2, f3, f4, f5, f6, f7, f8⟩ :=
    tally_foldl_spec (cells_list u.rows u.columns) u (cells_list_nodup _ _)
  have htt : t' = { (cells_list u.rows u.columns).foldl tally_adjacent_step u with
      initialized := true } := by
    rw [ht']
    rfl
  have htb : ∀ l, t'.board l =
      ((cells_list u.rows u.columns).foldl tally_adjacent_step u).board l := by
    intro l
    rw [htt]
  have htmine : ∀ l, (t'.board l).is_mine = (u.board l).is_mine := by
    intro l
    rw [htb l, f8 l]
    by_cases hl : l ∈ cells_list u.rows u.columns <;> simp [hl]
  have hrows' : t'.rows = t.rows := by rw [htt]; exact f1.trans hurows
  have hcols' : t'.columns = t.columns := by rw [htt]; exact f2.trans hucols
  refine ⟨?_, hrows', hcols', by rw [htt]⟩
  intro c hc
  rw [mem_inBoundsCells, hrows', hcols'] at hc
  have hcl : c ∈ cells_list u.rows u.columns := by
    rw [mem_cells_list, hurows, hucols]
    exact hc
  rw [htb c, f8 c]
  simp only [hcl, if_true]
  rw [huadj c, hadj0 c (mem_inBoundsCells.mpr hc)]
  rw [hurows, hucols, hrows', hcols']
  simp only [Nat.zero_add]
  congr 1
  apply List.filter_congr
  intro d _
  rw [htmine d]

theorem zero_cell_neighbors_nonmine {t : Termsweeper} (hcons : mines_consistent t)
    {c : ℕ × ℕ} (h1 : c.1 < t.rows) (h2 : c.2 < t.columns)
    (hadj : (t.board c).adjacent_mines = 0) :
    ∀ d ∈ get_valid_adjacent_fields t.rows t.columns c,
      (t.board d).is_mine = false := by
  intro d hd
  have := hcons c (mem_inBoundsCells.mpr ⟨h1, h2⟩)
  rw [hadj] at this
  have hnil : (get_valid_adjacent_fields t.rows t.columns c).filter
      (fun l => (t.board l).is_mine) = [] :=
    List.length_eq_zero.mp this.symm
  have := List.filter_eq_nil.mp hnil d hd
  simpa using this

theorem reveal_core_with_noop (pick : List (ℕ × ℕ) → Nat) {t : Termsweeper}
    {f : Cell} (hget : get_field t t.cursor = some f)
    (h : f.marked = true ∨ f.revealed = true) :
    reveal_core_with pick t = some (false, t) := by
  unfold reveal_core_with
  rw [hget]
  have hcond : ¬(f.marked = false ∧ f.revealed = false) := by
    rcases h with h | h <;> simp [h]
  simp [hcond]

theorem reveal_core_with_mine (pick : List (ℕ × ℕ) → Nat) {t : Termsweeper}
    {f : Cell} (hget : get_field t t.cursor = some f)
    (hm : f.marked = false) (hr : f.revealed = false) (hmine : f.is_mine = true) :
    reveal_core_with pick t = some (true, reveal_all
      { set_field t t.cursor { f with revealed := true } with
        game_state := GameState.GameOver }) := by
  unfold reveal_core_with
  rw [hget]
  simp [hm, hr, hmine]

/-- A successful reveal of an unmarked, unrevealed non-mine cursor cell, in a
consistent flood-closed state with correct bookkeeping: the cursor cell (and
possibly a flood region) is revealed, all static data is kept, the result is
again consistent, flood-closed and correctly counted, and the game either
keeps its state with a non-zero counter or transitions to `Won` on zero with
the whole board revealed. -/
theorem reveal_core_nonmine_spec (pick : List (ℕ × ℕ) → Nat) {t : Termsweeper}
    {f : Cell} (hget : get_field t t.cursor = some f)
    (hm : f.marked = false) (hr : f.revealed = false) (hmine : f.is_mine = false)
    (hcons : mines_consistent t) (hclosed : flood_closed t)
    (hcount : t.fields_left_to_reveal = unrevealedNonMineCount t) :
    ∃ v, reveal_core_with pick t = some (true, v) ∧
      v.rows = t.rows ∧ v.columns = t.columns ∧ v.cursor = t.cursor ∧
      v.number_of_mines = t.number_of_mines ∧ v.initialized = t.initialized ∧
      (∀ l, (v.board l).is_mine = (t.board l).is_mine) ∧
      (∀ l, (v.board l).marked = (t.board l).marked) ∧
      (∀ l, (v.board l).adjacent_mines = (t.board l).adjacent_mines) ∧
      (∀ l, (t.board l).revealed = true → (v.board l).revealed = true) ∧
      (v.board t.cursor).revealed = true ∧
      mines_consistent v ∧ flood_closed v ∧
      v.fields_left_to_reveal = unrevealedNonMineCount v ∧
      ((v.game_state = t.game_state ∧ v.fields_left_to_reveal ≠ 0) ∨
        (v.game_state = GameState.Won ∧ v.fields_left_to_reveal = 0 ∧
          ∀ l, (v.board l).revealed = true)) := by
  have hb : t.cursor.1 < t.rows ∧ t.cursor.2 < t.columns := by
    by_contra hc
    simp [get_field, hc] at hget
  have hbe : t.board t.cursor = f := by
    rw [get_field, if_pos hb] at hget
    exact Option.some.inj hget
  set t2 := { set_field t t.cursor { f with revealed := true } with
    fields_left_to_reveal := t.fields_left_to_reveal - 1 } with ht2
  have hpt : ∀ l, t2.board l =
      if l = t.cursor then { f with revealed := true } else t.board l := fun l => rfl
  have hmine2 : ∀ l, (t2.board l).is_mine = (t.board l).is_mine := by
    intro l
    rw [hpt]
    by_cases hl : l = t.cursor <;> simp [hl, hbe]
  have hmarked2 : ∀ l, (t2.board l).marked = (t.board l).marked := by
    intro l
    rw [hpt]
    by_cases hl : l = t.cursor <;> simp [hl, hbe]
  have hadj2 : ∀ l, (t2.board l).adjacent_mines = (t.board l).adjacent_mines := by
    intro l
    rw [hpt]
    by_cases hl : l = t.cursor <;> simp [hl, hbe]
  have hmono2 : ∀ l, (t.board l).revealed = true → (t2.board l).revealed = true := by
    intro l h
    rw [hpt]
    by_cases hl : l = t.cursor <;> simp [hl, h]
  have hcurrev2 : (t2.board t.cursor).revealed = true := by
    rw [hpt]
    simp
  have hcons2 : mines_consistent t2 :=
    mines_consistent_transfer (t := t) (u := t2) rfl rfl hmine2 hadj2 hcons
  have hcount2 : t2.fields_left_to_reveal = unrevealedNonMineCount t2 := by
    have hcc : unrevealedNonMineCount t =
        unrevealedNonMineCount (set_field t t.cursor { f with revealed := true }) + 1 :=
      unrevealedNonMineCount_set_revealed t t.cursor { f with revealed := true }
        rfl hb.1 hb.2 (hbe ▸ hr) (hbe ▸ hmine)
    have ht2f : t2.fields_left_to_reveal = t.fields_left_to_reveal - 1 := rfl
    have ht2c : unrevealedNonMineCount t2 =
        unrevealedNonMineCount (set_field t t.cursor { f with revealed := true }) := rfl
    omega
  -- whichever branch runs, we get a post-flood state t3 with these facts:
  have hmain : ∃ t3,
      (if f.adjacent_mines = 0 then
        floodPick pick t2 (get_valid_adjacent_fields t.rows t.columns t.cursor)
      else some t2) = some t3 ∧
      t3.rows = t.rows ∧ t3.columns = t.columns ∧ t3.cursor = t.cursor ∧
      t3.number_of_mines = t.number_of_mines ∧ t3.initialized = t.initialized ∧
      t3.game_state = t.game_state ∧
      (∀ l, (t3.board l).is_mine = (t.board l).is_mine) ∧
      (∀ l, (t3.board l).marked = (t.board l).marked) ∧
      (∀ l, (t3.board l).adjacent_mines = (t.board l).adjacent_mines) ∧
      (∀ l, (t.board l).revealed = true → (t3.board l).revealed = true) ∧
      (t3.board t.cursor).revealed = true ∧
      mines_consistent t3 ∧ flood_closed t3 ∧
      t3.fields_left_to_reveal = unrevealedNonMineCount t3 := by
    by_cases hadj : f.adjacent_mines = 0
    · obtain ⟨t3, hu, o1, o2, o3, o4, o5, o6, o7, o8, o9, o10, o11, o12, o13, o14⟩ :=
        floodPick_spec pick t2 (get_valid_adjacent_fields t.rows t.columns t.cursor)
          (fun _ => True)
          (fun w hw => valid_adjacent_bounds hb.1 hb.2 hw)
          (fun w hw => by
            rw [hmine2]
            exact zero_cell_neighbors_nonmine hcons hb.1 hb.2 (hbe ▸ hadj) w hw)
          hcons2
          (fun w _ => trivial)
          (fun c _ _ _ d _ => trivial)
          (fun c hc1 hc2 hc3 hc4 hc5 d hd => by
            by_cases hcc : c = t.cursor
            · subst hcc
              exact Or.inr hd
            · have hct : (t.board c).revealed = true := by
                rw [hpt, if_neg hcc] at hc3
                exact hc3
              rw [hmine2] at hc4
              rw [hadj2] at hc5
              refine Or.inl (hmono2 d ?_)
              exact hclosed c (mem_inBoundsCells.mpr ⟨hc1, hc2⟩) hct hc4 hc5 d hd)
      refine ⟨t3, by rw [if_pos hadj]; exact hu, o1, o2, o3, o4, o5, o6,
        fun l => (o7 l).trans (hmine2 l), fun l => (o8 l).trans (hmarked2 l),
        fun l => (o9 l).trans (hadj2 l),
        fun l h => o10 l (hmono2 l h), o10 t.cursor hcurrev2,
        mines_consistent_transfer (t := t2) (u := t3) o1 o2 o7 o9 hcons2,
        o13, o14 hcount2⟩
    · refine ⟨t2, by rw [if_neg hadj], rfl, rfl, rfl, rfl, rfl, rfl,
        hmine2, hmarked2, hadj2, hmono2, hcurrev2, hcons2, ?_, hcount2⟩
      -- t2 is flood-closed: the cursor cell is not a zero cell
      intro c hc hc3 hc4 hc5 d hd
      by_cases hcc : c = t.cursor
      · subst hcc
        rw [hadj2, hbe] at hc5
        exact absurd hc5 hadj
      · have hct : (t.board c).revealed = true := by
          rw [hpt, if_neg hcc] at hc3
          exact hc3
        rw [hmine2] at hc4
        rw [hadj2] at hc5
        exact hmono2 d (hclosed c hc hct hc4 hc5 d hd)
  obtain ⟨t3, heq3, p1, p2, p3, p4, p5, p6, p7, p8, p9, p10, p11, p12, p13, p14⟩ := hmain
  have hrun : reveal_core_with pick t =
      (match (if f.adjacent_mines = 0 then
          floodPick pick t2 (get_valid_adjacent_fields t.rows t.columns t.cursor)
        else some t2) with
      | none => none
      | some t3 =>
        if t3.fields_left_to_reveal = 0 then
          some (true, reveal_all { t3 with game_state := GameState.Won })
        else some (true, t3)) := by
    unfold reveal_core_with
    split
    · next heq => rw [hget] at heq; cases heq
    · next f2 heq =>
      rw [hget] at heq
      cases heq
      rw [if_pos (And.intro hm hr)]
      rw [if_neg (by simp [hmine] : ¬(f.is_mine = true))]
      rfl
  have hstep : reveal_core_with pick t =
      (if t3.fields_left_to_reveal = 0 then
        some (true, reveal_all { t3 with game_state := GameState.Won })
      else some (true, t3)) := by
    rw [hrun, heq3]
  by_cases hz : t3.fields_left_to_reveal = 0
  · set v := reveal_all { t3 with game_state := GameState.Won } with hv
    have hvb : ∀ l, v.board l = { t3.board l with revealed := true } := fun l => rfl
    refine ⟨v, by rw [hstep, if_pos hz], p1, p2, p3, p4, p5,
      fun l => by rw [hvb]; exact p7 l,
      fun l => by rw [hvb]; exact p8 l,
      fun l => by rw [hvb]; exact p9 l,
      fun l _ => by rw [hvb], by rw [hvb],
      mines_consistent_transfer (t := t3) (u := v) rfl rfl
        (fun l => by rw [hvb]) (fun l => by rw [hvb]) p12,
      ?_, ?_, Or.inr ⟨rfl, hz, fun l => by rw [hvb]⟩⟩
    · intro c hc hc3 hc4 hc5 d hd
      rw [hvb]
    · have h0 : unrevealedNonMineCount v = 0 := unrevealedNonMineCount_reveal_all _
      have hfv : v.fields_left_to_reveal = t3.fields_left_to_reveal := rfl
      rw [h0, hfv, hz]
  · exact ⟨t3, by rw [hstep, if_neg hz], p1, p2, p3, p4, p5, p7, p8, p9, p10, p11,
      p12, p13, p14, Or.inl ⟨p6, hz⟩⟩

theorem flood_closed_transfer {t u : Termsweeper}
    (hrows : u.rows = t.rows) (hcols : u.columns = t.columns)
    (hrev : ∀ l, (u.board l).revealed = (t.board l).revealed)
    (hmine : ∀ l, (u.board l).is_mine = (t.board l).is_mine)
    (hadj : ∀ l, (u.board l).adjacent_mines = (t.board l).adjacent_mines)
    (h : flood_closed t) : flood_closed u := by
  intro c hc h1 h2 h3 d hd
  rw [mem_inBoundsCells, hrows, hcols] at hc
  rw [hrev] at h1
  rw [hmine] at h2
  rw [hadj] at h3
  rw [hrows, hcols] at hd
  rw [hrev]
  exact h c (mem_inBoundsCells.mpr hc) h1 h2 h3 d hd

theorem unrevealedNonMineCount_congr {t u : Termsweeper}
    (hrows : u.rows = t.rows) (hcols : u.columns = t.columns)
    (hrev : ∀ l, (u.board l).revealed = (t.board l).revealed)
    (hmine : ∀ l, (u.board l).is_mine = (t.board l).is_mine) :
    unrevealedNonMineCount u = unrevealedNonMineCount t := by
  unfold unrevealedNonMineCount
  rw [hrows, hcols]
  congr 1
  apply Finset.filter_congr
  intro l _
  rw [hrev, hmine]

/-- The invariant only mentions the cursor through its bounds, so it survives
any in-bounds cursor move. -/
theorem engineInv_cursor_update {t : Termsweeper} (hinv : EngineInv t)
    {cur : ℕ × ℕ} (h1 : cur.1 < t.rows) (h2 : cur.2 < t.columns) :
    EngineInv { t with cursor := cur } := by
  obtain ⟨_, _, hpre, hpost⟩ := hinv
  exact ⟨h1, h2, hpre, hpost⟩

theorem move_cursor_left_inv {t : Termsweeper} (hinv : EngineInv t) :
    EngineInv (move_cursor_left t).2 ∧ (move_cursor_left t).2.rows = t.rows ∧
      (move_cursor_left t).2.columns = t.columns ∧
      (move_cursor_left t).2.game_state = t.game_state := by
  unfold move_cursor_left
  by_cases h : t.cursor.2 ≠ 0
  · rw [if_pos h]
    exact ⟨engineInv_cursor_update hinv hinv.1 (by have := hinv.2.1; omega), rfl, rfl, rfl⟩
  · rw [if_neg h]
    exact ⟨hinv, rfl, rfl, rfl⟩

theorem move_cursor_down_inv {t : Termsweeper} (hinv : EngineInv t) :
    EngineInv (move_cursor_down t).2 ∧ (move_cursor_down t).2.rows = t.rows ∧
      (move_cursor_down t).2.columns = t.columns ∧
      (move_cursor_down t).2.game_state = t.game_state := by
  unfold move_cursor_down
  by_cases h : t.cursor.1 ≠ t.rows - 1
  · rw [if_pos h]
    exact ⟨engineInv_cursor_update hinv (by have := hinv.1; omega) hinv.2.1, rfl, rfl, rfl⟩
  · rw [if_neg h]
    exact ⟨hinv, rfl, rfl, rfl⟩

theorem move_cursor_up_inv {t : Termsweeper} (hinv : EngineInv t) :
    EngineInv (move_cursor_up t).2 ∧ (move_cursor_up t).2.rows = t.rows ∧
      (move_cursor_up t).2.columns = t.columns ∧
      (move_cursor_up t).2.game_state = t.game_state := by
  unfold move_cursor_up
  by_cases h : t.cursor.1 ≠ 0
  · rw [if_pos h]
    exact ⟨engineInv_cursor_update hinv (by have := hinv.1; omega) hinv.2.1, rfl, rfl, rfl⟩
  · rw [if_neg h]
    exact ⟨hinv, rfl, rfl, rfl⟩

theorem move_cursor_right_inv {t : Termsweeper} (hinv : EngineInv t) :
    EngineInv (move_cursor_right t).2 ∧ (move_cursor_right t).2.rows = t.rows ∧
      (move_cursor_right t).2.columns = t.columns ∧
      (move_cursor_right t).2.game_state = t.game_state := by
  unfold move_cursor_right
  by_cases h : t.cursor.2 ≠ t.columns - 1
  · rw [if_pos h]
    exact ⟨engineInv_cursor_update hinv hinv.1 (by have := hinv.2.1; omega), rfl, rfl, rfl⟩
  · rw [if_neg h]
    exact ⟨hinv, rfl, rfl, rfl⟩

theorem toggle_mark_inv {t : Termsweeper} (hinv : EngineInv t) {b : Bool}
    {u : Termsweeper} (h : toggle_mark t = some (b, u)) :
    EngineInv u ∧ u.rows = t.rows ∧ u.columns = t.columns ∧
      u.game_state = t.game_state := by
  have hgf : get_field t t.cursor = some (t.board t.cursor) := by
    rw [get_field, if_pos ⟨hinv.1, hinv.2.1⟩]
  unfold toggle_mark at h
  split at h
  · next heq => rw [hgf] at heq; cases heq
  · next f heq =>
    rw [hgf] at heq
    have hf : f = t.board t.cursor := (Option.some.inj heq).symm
    split at h
    · have hu : u = set_field t t.cursor { f with marked := !f.marked } :=
        (Prod.mk.injEq _ _ _ _).mp (Option.some.inj h) |>.2.symm
      subst hu
      have hrev : ∀ l, ((set_field t t.cursor { f with marked := !f.marked }).board l).revealed =
          (t.board l).revealed := by
        intro l
        rw [board_set_field]
        by_cases hl : l = t.cursor <;> simp [hl, hf]
      have hmine : ∀ l, ((set_field t t.cursor { f with marked := !f.marked }).board l).is_mine =
          (t.board l).is_mine := by
        intro l
        rw [board_set_field]
        by_cases hl : l = t.cursor <;> simp [hl, hf]
      have hadj : ∀ l, ((set_field t t.cursor { f with marked := !f.marked }).board l).adjacent_mines =
          (t.board l).adjacent_mines := by
        intro l
        rw [board_set_field]
        by_cases hl : l = t.cursor <;> simp [hl, hf]
      obtain ⟨hc1, hc2, hpre, hpost⟩ := hinv
      refine ⟨⟨hc1, hc2, ?_, ?_⟩, rfl, rfl, rfl⟩
      · intro hni
        obtain ⟨k1, k2, k3⟩ := hpre hni
        exact ⟨k1, k2, fun c hc =>
          ⟨hmine c ▸ (k3 c hc).1, hrev c ▸ (k3 c hc).2.1, hadj c ▸ (k3 c hc).2.2⟩⟩
      · intro hi
        obtain ⟨k1, k2, k3, k4⟩ := hpost hi
        refine ⟨mines_consistent_transfer (t := t)
            (u := set_field t t.cursor { f with marked := !f.marked }) rfl rfl hmine hadj k1,
          flood_closed_transfer (t := t)
            (u := set_field t t.cursor { f with marked := !f.marked }) rfl rfl hrev hmine hadj k2,
          ?_, ?_⟩
        · intro hgs
          rw [unrevealedNonMineCount_congr (t := t)
            (u := set_field t t.cursor { f with marked := !f.marked }) rfl rfl hrev hmine]
          exact k3 hgs
        · intro hgs c hc
          rw [hrev]
          exact k4 hgs c hc
    · have hu : u = t := (Prod.mk.injEq _ _ _ _).mp (Option.some.inj h) |>.2.symm
      subst hu
      exact ⟨hinv, rfl, rfl, rfl⟩

theorem reveal_core_preserves_inv {t : Termsweeper} (hinv : EngineInv t)
    (hinit : t.initialized = true) (hplay : t.game_state = GameState.Playing)
    {pick : List (ℕ × ℕ) → Nat} {b : Bool} {u : Termsweeper}
    (h : reveal_core_with pick t = some (b, u)) :
    EngineInv u ∧ u.rows = t.rows ∧ u.columns = t.columns := by
  obtain ⟨hc1, hc2, hpre, hpost⟩ := hinv
  obtain ⟨k1, k2, k3, k4⟩ := hpost hinit
  have hgf : get_field t t.cursor = some (t.board t.cursor) := by
    rw [get_field, if_pos ⟨hc1, hc2⟩]
  set f := t.board t.cursor with hfdef
  by_cases hnoop : f.marked = true ∨ f.revealed = true
  · rw [reveal_core_with_noop pick hgf hnoop] at h
    have hu : u = t := (Prod.mk.injEq _ _ _ _).mp (Option.some.inj h) |>.2.symm
    subst hu
    exact ⟨⟨hc1, hc2, hpre, hpost⟩, rfl, rfl⟩
  · push_neg at hnoop
    have hm : f.marked = false := by simpa using hnoop.1
    have hr : f.revealed = false := by simpa using hnoop.2
    by_cases hmine : f.is_mine = true
    · -- mine: GameOver and full reveal
      rw [reveal_core_with_mine pick hgf hm hr hmine] at h
      have hu : u = reveal_all { set_field t t.cursor { f with revealed := true } with
          game_state := GameState.GameOver } :=
        (Prod.mk.injEq _ _ _ _).mp (Option.some.inj h) |>.2.symm
      subst hu
      set w := reveal_all { set_field t t.cursor { f with revealed := true } with
          game_state := GameState.GameOver } with hw
      have hwb : ∀ l, w.board l =
          { (if l = t.cursor then { f with revealed := true } else t.board l) with
            revealed := true } := fun l => rfl
      have hwmine : ∀ l, (w.board l).is_mine = (t.board l).is_mine := by
        intro l
        rw [hwb]
        by_cases hl : l = t.cursor <;> simp [hl, hfdef]
      have hwadj : ∀ l, (w.board l).adjacent_mines = (t.board l).adjacent_mines := by
        intro l
        rw [hwb]
        by_cases hl : l = t.cursor <;> simp [hl, hfdef]
      have hwrev : ∀ l, (w.board l).revealed = true := by
        intro l
        rw [hwb]
      refine ⟨⟨hc1, hc2, ?_, ?_⟩, rfl, rfl⟩
      · intro hni
        rw [show w.initialized = t.initialized from rfl, hinit] at hni
        cases hni
      · intro _
        refine ⟨mines_consistent_transfer (t := t) (u := w) rfl rfl hwmine hwadj k1,
          ?_, ?_, ?_⟩
        · intro c hc h1 h2 h3 d hd
          exact hwrev d
        · intro hgs
          exact absurd rfl hgs
        · intro _ c _
          exact hwrev c
    · have hmf : f.is_mine = false := by simpa using hmine
      obtain ⟨v, hv, q1, q2, q3, q4, q5, q6, q7, q8, q9, q10, q11, q12, q13, q14⟩ :=
        reveal_core_nonmine_spec pick hgf hm hr hmf k1 k2 (k3 (by rw [hplay]; intro hx; cases hx))
      rw [hv] at h
      have hu : u = v := (Prod.mk.injEq _ _ _ _).mp (Option.some.inj h) |>.2.symm
      subst hu
      refine ⟨⟨by rw [q3, q1]; exact hc1, by rw [q3, q2]; exact hc2, ?_, ?_⟩, q1, q2⟩
      · intro hni
        rw [q5, hinit] at hni
        cases hni
      · intro _
        refine ⟨q11, q12, fun _ => q13, ?_⟩
        intro hgs c hc
        rcases q14 with ⟨hsame, _⟩ | ⟨hwon, _, hall⟩
        · rw [hsame, hplay] at hgs
          exact absurd rfl hgs
        · exact hall c

theorem reveal_preserves_inv {t : Termsweeper} (hinv : EngineInv t)
    (hplay : t.game_state = GameState.Playing)
    {stream : Nat → ℕ × ℕ} {fuel : Nat} {b : Bool} {u : Termsweeper}
    (h : reveal stream fuel t = some (b, u)) :
    EngineInv u ∧ u.rows = t.rows ∧ u.columns = t.columns := by
  unfold reveal reveal_with at h
  split at h
  · cases h
  · next t1 heq =>
    by_cases hinit : t.initialized = true
    · have ht1 : t1 = t := by
        unfold init_board at heq
        rw [if_pos (by rw [hinit] : (t.initialized : Prop))] at heq
        exact (Option.some.inj heq).symm
      subst ht1
      exact reveal_core_preserves_inv hinv hinit hplay h
    · have hninit : t.initialized = false := by simpa using hinit
      obtain ⟨hc1, hc2, hpre, hpost⟩ := hinv
      obtain ⟨k1, k2, k3⟩ := hpre hninit
      obtain ⟨s1, s2, s3, s4, s5, s6, s7, s8, s9, s10, s11, s12, s13, s14⟩ :=
        init_board_spec hninit hc1 hc2 k3 heq
      have hinv1 : EngineInv t1 := by
        refine ⟨by rw [s3, s1]; exact hc1, by rw [s3, s2]; exact hc2, ?_, ?_⟩
        · intro hni
          rw [s4] at hni
          cases hni
        · intro _
          refine ⟨s8, ?_, fun _ => s14, ?_⟩
          · intro c hc hrev2 _ _ d _
            rw [mem_inBoundsCells, s1, s2] at hc
            rw [s6 c, (k3 c (mem_inBoundsCells.mpr hc)).2.1] at hrev2
            cases hrev2
          · intro hgs
            rw [s5, k2] at hgs
            exact absurd rfl hgs
      have hplay1 : t1.game_state = GameState.Playing := by rw [s5, k2]
      have hinit1 : t1.initialized = true := s4
      obtain ⟨r1, r2, r3⟩ := reveal_core_preserves_inv hinv1 hinit1 hplay1 h
      exact ⟨r1, by rw [r2, s1], by rw [r3, s2]⟩

theorem handle_event_preserves_inv {t : Termsweeper} (hinv : EngineInv t)
    {stream : Nat → ℕ × ℕ} {fuel : Nat} {key : Key} {b : Bool} {u : Termsweeper}
    (h : handle_event stream fuel key t = some (b, u)) :
    EngineInv u ∧ u.rows = t.rows ∧ u.columns = t.columns := by
  unfold handle_event at h
  split at h
  · next hgs =>
    split_ifs at h with h1 h2 h3 h4 h5 h6
    · have hu : u = (move_cursor_left t).2 :=
        ((Prod.mk.injEq _ _ _ _).mp (Option.some.inj h)).2.symm
      subst hu
      obtain ⟨m1, m2, m3, _⟩ := move_cursor_left_inv hinv
      exact ⟨m1, m2, m3⟩
    · have hu : u = (move_cursor_down t).2 :=
        ((Prod.mk.injEq _ _ _ _).mp (Option.some.inj h)).2.symm
      subst hu
      obtain ⟨m1, m2, m3, _⟩ := move_cursor_down_inv hinv
      exact ⟨m1, m2, m3⟩
    · have hu : u = (move_cursor_up t).2 :=
        ((Prod.mk.injEq _ _ _ _).mp (Option.some.inj h)).2.symm
      subst hu
      obtain ⟨m1, m2, m3, _⟩ := move_cursor_up_inv hinv
      exact ⟨m1, m2, m3⟩
    · have hu : u = (move_cursor_right t).2 :=
        ((Prod.mk.injEq _ _ _ _).mp (Option.some.inj h)).2.symm
      subst hu
      obtain ⟨m1, m2, m3, _⟩ := move_cursor_right_inv hinv
      exact ⟨m1, m2, m3⟩
    · obtain ⟨m1, m2, m3, _⟩ := toggle_mark_inv hinv h
      exact ⟨m1, m2, m3⟩
    · exact reveal_preserves_inv hinv hgs h
    · have hu : u = t := ((Prod.mk.injEq _ _ _ _).mp (Option.some.inj h)).2.symm
      subst hu
      exact ⟨hinv, rfl, rfl⟩
  · have hu : u = t := ((Prod.mk.injEq _ _ _ _).mp (Option.some.inj h)).2.symm
    subst hu
    exact ⟨hinv, rfl, rfl⟩

theorem engineInv_new (columns rows number_of_mines : Nat)
    (hr : 0 < rows) (hc : 0 < columns) :
    EngineInv (Termsweeper.new columns rows number_of_mines) := by
  refine ⟨hr, hc, ?_, ?_⟩
  · intro _
    exact ⟨rfl, rfl, fun c _ => ⟨rfl, rfl, rfl⟩⟩
  · intro hi
    simp [Termsweeper.new] at hi

theorem reachable_inv {t0 t : Termsweeper} (h0 : EngineInv t0)
    (h : Reachable t0 t) :
    EngineInv t ∧ t.rows = t0.rows ∧ t.columns = t0.columns := by
  unfold Reachable at h
  induction h with
  | refl => exact ⟨h0, rfl, rfl⟩
  | tail hab hstep ih =>
    obtain ⟨stream, fuel, key, changed, hh⟩ := hstep
    obtain ⟨i1, i2, i3⟩ := ih
    obtain ⟨j1, j2, j3⟩ := handle_event_preserves_inv i1 hh
    exact ⟨j1, j2.trans i2, j3.trans i3⟩
theorem place_mines_loop_zero (stream : Nat → ℕ × ℕ) (rows columns : Nat)
    (cursor : ℕ × ℕ) (va : List (ℕ × ℕ)) (target pos : Nat)
    (acc : List (ℕ × ℕ)) :
    place_mines_loop stream rows columns cursor va target 0 pos acc =
      if target ≤ acc.length then some acc else none := by
  rw [place_mines_loop]

theorem place_mines_loop_succ (stream : Nat → ℕ × ℕ) (rows columns : Nat)
    (cursor : ℕ × ℕ) (va : List (ℕ × ℕ)) (target fuel pos : Nat)
    (acc : List (ℕ × ℕ)) :
    place_mines_loop stream rows columns cursor va target (fuel + 1) pos acc =
      if target ≤ acc.length then some acc
      else if ((stream pos).1 % rows, (stream pos).2 % columns) ≠ cursor ∧
          ((stream pos).1 % rows, (stream pos).2 % columns) ∉ va ∧
          ((stream pos).1 % rows, (stream pos).2 % columns) ∉ acc then
        place_mines_loop stream rows columns cursor va target fuel (pos + 1)
          (acc ++ [((stream pos).1 % rows, (stream pos).2 % columns)])
      else place_mines_loop stream rows columns cursor va target fuel (pos + 1) acc := by
  rw [place_mines_loop]

theorem mem_eligibleCells {rows columns : Nat} {cursor c : ℕ × ℕ}
    {va : List (ℕ × ℕ)} :
    c ∈ eligibleCells rows columns cursor va ↔
      c.1 < rows ∧ c.2 < columns ∧ c ≠ cursor ∧ c ∉ va := by
  simp [eligibleCells, Finset.mem_filter, mem_inBoundsCells, and_assoc]

/-- With a fair stream and at least as many eligible cells as mines still to
place, the rejection-sampling loop finishes with some amount of fuel. -/
theorem place_mines_loop_progress (stream : Nat → ℕ × ℕ) (rows columns : Nat)
    (cursor : ℕ × ℕ) (va : List (ℕ × ℕ)) (target : Nat)
    (hfair : FairStream stream rows columns)
    (htarget : target ≤ (eligibleCells rows columns cursor va).card) :
    ∀ n pos acc, acc.Nodup →
    (∀ l ∈ acc, l ∈ eligibleCells rows columns cursor va) →
    target - acc.length = n →
    ∃ fuel locs,
      place_mines_loop stream rows columns cursor va target fuel pos acc =
        some locs := by
  intro n
  induction n using Nat.strong_induction_on with
  | _ n ih =>
  intro pos acc hnd hsub hdelta
  by_cases hdone : target ≤ acc.length
  · exact ⟨0, acc, by rw [place_mines_loop_zero, if_pos hdone]⟩
  · have hlt : acc.length < target := by omega
    have hcard : acc.toFinset.card < (eligibleCells rows columns cursor va).card := by
      have h1 : acc.toFinset.card = acc.length := by
        rw [List.card_toFinset, hnd.dedup]
      omega
    have hns : ¬ (eligibleCells rows columns cursor va ⊆ acc.toFinset) :=
      fun hsub2 => absurd (Finset.card_le_card hsub2) (by omega)
    obtain ⟨c, hce, hca⟩ := Finset.not_subset.mp hns
    rw [List.mem_toFinset] at hca
    have hcb := mem_eligibleCells.mp hce
    obtain ⟨k, hk⟩ := hfair pos c hcb.1 hcb.2.1
    have inner : ∀ k pos acc, acc.Nodup →
        (∀ l ∈ acc, l ∈ eligibleCells rows columns cursor va) →
        acc.length < target → target - acc.length = n →
        (∃ c, c ∈ eligibleCells rows columns cursor va ∧ c ∉ acc ∧
          streamCell stream rows columns (pos + k) = c) →
        ∃ fuel locs,
          place_mines_loop stream rows columns cursor va target fuel pos acc =
            some locs := by
      intro k
      induction k with
      | zero =>
        intro pos acc hnd2 hsub2 hlt2 hdelta2 hcw
        obtain ⟨c2, hce2, hca2, hk2⟩ := hcw
        rw [Nat.add_zero] at hk2
        have hcb2 := mem_eligibleCells.mp hce2
        have hok : ((stream pos).1 % rows, (stream pos).2 % columns) ≠ cursor ∧
            ((stream pos).1 % rows, (stream pos).2 % columns) ∉ va ∧
            ((stream pos).1 % rows, (stream pos).2 % columns) ∉ acc := by
          rw [show ((stream pos).1 % rows, (stream pos).2 % columns) =
            streamCell stream rows columns pos from rfl, hk2]
          exact ⟨hcb2.2.2.1, hcb2.2.2.2, hca2⟩
        obtain ⟨fuel0, locs, hf⟩ := ih (target - (acc.length + 1)) (by omega)
          (pos + 1) (acc ++ [((stream pos).1 % rows, (stream pos).2 % columns)])
          (by
            rw [List.nodup_append]
            exact ⟨hnd2, List.nodup_singleton _, by simpa using hok.2.2⟩)
          (by
            intro l hl
            rcases List.mem_append.mp hl with h2 | h2
            · exact hsub2 l h2
            · have : l = ((stream pos).1 % rows, (stream pos).2 % columns) := by
                simpa using h2
              subst this
              rw [show ((stream pos).1 % rows, (stream pos).2 % columns) =
                streamCell stream rows columns pos from rfl, hk2]
              exact hce2)
          (by simp)
        exact ⟨fuel0 + 1, locs, by
          rw [place_mines_loop_succ, if_neg (by omega), if_pos hok]
          exact hf⟩
      | succ k ihk =>
        intro pos acc hnd2 hsub2 hlt2 hdelta2 hcw
        obtain ⟨c2, hce2, hca2, hk2⟩ := hcw
        by_cases hok : ((stream pos).1 % rows, (stream pos).2 % columns) ≠ cursor ∧
            ((stream pos).1 % rows, (stream pos).2 % columns) ∉ va ∧
            ((stream pos).1 % rows, (stream pos).2 % columns) ∉ acc
        · obtain ⟨fuel0, locs, hf⟩ := ih (target - (acc.length + 1)) (by omega)
            (pos + 1) (acc ++ [((stream pos).1 % rows, (stream pos).2 % columns)])
            (by
              rw [List.nodup_append]
              exact ⟨hnd2, List.nodup_singleton _, by simpa using hok.2.2⟩)
            (by
              intro l hl
              rcases List.mem_append.mp hl with h2 | h2
              · exact hsub2 l h2
              · have : l = ((stream pos).1 % rows, (stream pos).2 % columns) := by
                  simpa using h2
                subst this
                rw [mem_eligibleCells]
                exact ⟨Nat.mod_lt _ (Nat.lt_of_le_of_lt (Nat.zero_le _) hcb.1),
                  Nat.mod_lt _ (Nat.lt_of_le_of_lt (Nat.zero_le _) hcb.2.1),
                  hok.1, hok.2.1⟩)
            (by simp)
          exact ⟨fuel0 + 1, locs, by
            rw [place_mines_loop_succ, if_neg (by omega), if_pos hok]
            exact hf⟩
        · obtain ⟨fuel0, locs, hf⟩ := ihk (pos + 1) acc hnd2 hsub2 hlt2 hdelta2
            ⟨c2, hce2, hca2, by
              rw [show pos + 1 + k = pos + (k + 1) by omega]
              exact hk2⟩
          exact ⟨fuel0 + 1, locs, by
            rw [place_mines_loop_succ, if_neg (by omega), if_neg hok]
            exact hf⟩
    exact inner k pos acc hnd hsub hlt hdelta ⟨c, hce, hca, hk⟩

theorem eligibleCells_card (rows columns : Nat) (cursor : ℕ × ℕ)
    (h1 : cursor.1 < rows) (h2 : cursor.2 < columns) :
    (eligibleCells rows columns cursor
        (get_valid_adjacent_fields rows columns cursor)).card =
      rows * columns - 1 - (get_valid_adjacent_fields rows columns cursor).length := by
  set va := get_valid_adjacent_fields rows columns cursor with hva
  have hsub : insert cursor va.toFinset ⊆ inBoundsCells rows columns := by
    intro x hx
    rcases Finset.mem_insert.mp hx with h | h
    · subst h
      exact mem_inBoundsCells.mpr ⟨h1, h2⟩
    · rw [List.mem_toFinset] at h
      exact mem_inBoundsCells.mpr (valid_adjacent_bounds h1 h2 h)
  have heq : eligibleCells rows columns cursor va =
      inBoundsCells rows columns \ insert cursor va.toFinset := by
    ext c
    simp only [eligibleCells, Finset.mem_sdiff, Finset.mem_filter,
      Finset.mem_insert, List.mem_toFinset]
    constructor
    · intro ⟨hb, hne, hnv⟩
      exact ⟨hb, fun h => h.elim hne hnv⟩
    · intro ⟨hb, hn⟩
      exact ⟨hb, fun h => hn (Or.inl h), fun h => hn (Or.inr h)⟩
  rw [heq, Finset.card_sdiff hsub]
  have hnmem : cursor ∉ va.toFinset := by
    rw [List.mem_toFinset]
    intro hx
    exact (valid_adjacent_ne_self h1 h2 hx) rfl
  rw [Finset.card_insert_of_not_mem hnmem, List.card_toFinset,
    (valid_adjacent_nodup cursor).dedup]
  have hc : (inBoundsCells rows columns).card = rows * columns := by
    rw [inBoundsCells, Finset.card_product]
    simp
  rw [hc]
  have hlen : va.length = (get_valid_adjacent_fields rows columns cursor).length := by
    rw [hva]
  omega

theorem init_board_of_loop {stream : Nat → ℕ × ℕ} {fuel : Nat}
    {t : Termsweeper} {locs : List (ℕ × ℕ)}
    (hninit : t.initialized = false)
    (h : place_mines_loop stream t.rows t.columns t.cursor
        (get_valid_adjacent_fields t.rows t.columns t.cursor)
        (if t.columns * t.rows - 1 -
            (get_valid_adjacent_fields t.rows t.columns t.cursor).length <
            t.number_of_mines then
          t.columns * t.rows - 1 -
            (get_valid_adjacent_fields t.rows t.columns t.cursor).length
        else t.number_of_mines) fuel 0 [] = some locs) :
    ∃ t', init_board stream fuel t = some t' := by
  unfold init_board
  rw [if_neg (by simp [hninit])]
  dsimp only
  rw [h]
  exact ⟨_, rfl⟩

/-- With a fair draw stream, the lazy set-up always finishes: the clamp
guarantees at least as many eligible cells as mines to place. -/
theorem init_board_terminates (stream : Nat → ℕ × ℕ) {t : Termsweeper}
    (hninit : t.initialized = false)
    (hcb1 : t.cursor.1 < t.rows) (hcb2 : t.cursor.2 < t.columns)
    (hfair : FairStream stream t.rows t.columns) :
    ∃ fuel t', init_board stream fuel t = some t' := by
  have htarget : (if t.columns * t.rows - 1 -
      (get_valid_adjacent_fields t.rows t.columns t.cursor).length <
      t.number_of_mines then
      t.columns * t.rows - 1 -
        (get_valid_adjacent_fields t.rows t.columns t.cursor).length
    else t.number_of_mines) ≤
      (eligibleCells t.rows t.columns t.cursor
        (get_valid_adjacent_fields t.rows t.columns t.cursor)).card := by
    rw [eligibleCells_card t.rows t.columns t.cursor hcb1 hcb2, Nat.mul_comm]
    split <;> omega
  obtain ⟨fuel, locs, hf⟩ := place_mines_loop_progress stream t.rows t.columns
    t.cursor (get_valid_adjacent_fields t.rows t.columns t.cursor) _
    hfair htarget _ 0 [] List.nodup_nil (fun l hl => absurd hl (List.not_mem_nil l))
    rfl
  obtain ⟨t', ht'⟩ := init_board_of_loop hninit hf
  exact ⟨fuel, t', ht'⟩
theorem zreach_zero {t : Termsweeper} {s c : ℕ × ℕ}
    (h : ZeroReach t s c) : zero_cell t c := by
  induction h with
  | refl h0 => exact h0
  | step c d _ _ hz _ => exact hz

/-- The non-mine branch of the reveal body as one equation. -/
theorem reveal_core_with_nonmine_eq (pick : List (ℕ × ℕ) → Nat)
    {t : Termsweeper} {f : Cell} (hget : get_field t t.cursor = some f)
    (hm : f.marked = false) (hr : f.revealed = false) (hmine : f.is_mine = false) :
    reveal_core_with pick t =
      (match (if f.adjacent_mines = 0 then
          floodPick pick
            { set_field t t.cursor { f with revealed := true } with
              fields_left_to_reveal := t.fields_left_to_reveal - 1 }
            (get_valid_adjacent_fields t.rows t.columns t.cursor)
        else some { set_field t t.cursor { f with revealed := true } with
              fields_left_to_reveal := t.fields_left_to_reveal - 1 }) with
      | none => none
      | some t3 =>
        if t3.fields_left_to_reveal = 0 then
          some (true, reveal_all { t3 with game_state := GameState.Won })
        else some (true, t3)) := by
  unfold reveal_core_with
  split
  · next heq => rw [hget] at heq; cases heq
  · next f2 heq =>
    rw [hget] at heq
    cases heq
    rw [if_pos (And.intro hm hr)]
    rw [if_neg (by simp [hmine] : ¬(f.is_mine = true))]
    rfl

/-- In an invariant-satisfying state of a running game, the reveal body
always answers (no panic, no divergence). -/
theorem reveal_core_with_total {t : Termsweeper} (hinv : EngineInv t)
    (hinit : t.initialized = true) (hplay : t.game_state = GameState.Playing)
    (pick : List (ℕ × ℕ) → Nat) :
    ∃ r, reveal_core_with pick t = some r := by
  obtain ⟨hc1, hc2, hpre, hpost⟩ := hinv
  obtain ⟨k1, k2, k3, k4⟩ := hpost hinit
  have hgf : get_field t t.cursor = some (t.board t.cursor) := by
    rw [get_field, if_pos ⟨hc1, hc2⟩]
  set f := t.board t.cursor with hfdef
  by_cases hnoop : f.marked = true ∨ f.revealed = true
  · exact ⟨(false, t), reveal_core_with_noop pick hgf hnoop⟩
  · push_neg at hnoop
    have hm : f.marked = false := by simpa using hnoop.1
    have hr : f.revealed = false := by simpa using hnoop.2
    by_cases hmine : f.is_mine = true
    · exact ⟨_, reveal_core_with_mine pick hgf hm hr hmine⟩
    · have hmf : f.is_mine = false := by simpa using hmine
      obtain ⟨v, hv, _⟩ := reveal_core_nonmine_spec pick hgf hm hr hmf k1 k2
        (k3 (by rw [hplay]; intro hx; cases hx))
      exact ⟨(true, v), hv⟩

/-- The lazy set-up keeps the invariant, switches `initialized` on and leaves
the game running. -/
theorem init_board_inv {t : Termsweeper} (hinv : EngineInv t)
    (hninit : t.initialized = false) {stream : Nat → ℕ × ℕ} {fuel : Nat}
    {t1 : Termsweeper} (h : init_board stream fuel t = some t1) :
    EngineInv t1 ∧ t1.initialized = true ∧
      t1.game_state = GameState.Playing ∧ t1.rows = t.rows ∧
      t1.columns = t.columns := by
  obtain ⟨hc1, hc2, hpre, hpost⟩ := hinv
  obtain ⟨k1, k2, k3⟩ := hpre hninit
  obtain ⟨s1, s2, s3, s4, s5, s6, s7, s8, s9, s10, s11, s12, s13, s14⟩ :=
    init_board_spec hninit hc1 hc2 k3 h
  have hplay1 : t1.game_state = GameState.Playing := by rw [s5, k2]
  refine ⟨⟨by rw [s3, s1]; exact hc1, by rw [s3, s2]; exact hc2, ?_, ?_⟩,
    s4, hplay1, s1, s2⟩
  · intro hni
    rw [s4] at hni
    cases hni
  · intro _
    refine ⟨s8, ?_, fun _ => s14, ?_⟩
    · intro c hc hrev2 _ _ d _
      rw [mem_inBoundsCells, s1, s2] at hc
      rw [s6 c, (k3 c (mem_inBoundsCells.mpr hc)).2.1] at hrev2
      cases hrev2
    · intro hgs
      rw [hplay1] at hgs
      exact absurd rfl hgs

/-- C5: for every in-bounds location of a rows×columns board,
`get_valid_adjacent_fields` returns exactly the set of in-bounds coordinates
among the 8 compass neighbours of that location — fewer than 8 at the edges
and corners, with no duplicates and no wraparound across any edge. -/
theorem C5_valid_adjacent_exact (rows columns r c : Nat)
    (hr : r < rows) (hc : c < columns) :
    (get_valid_adjacent_fields rows columns (r, c)).Nodup ∧
    ∀ dr dc : Nat, (dr, dc) ∈ get_valid_adjacent_fields rows columns (r, c) ↔
      (dr < rows ∧ dc < columns ∧ ¬(dr = r ∧ dc = c) ∧
       (dr = r ∨ dr + 1 = r ∨ dr = r + 1) ∧
       (dc = c ∨ dc + 1 = c ∨ dc = c + 1)) :=
  ⟨valid_adjacent_nodup _, fun dr dc => mem_valid_adjacent dr dc hr hc⟩

/-- C5 witness: the corner (0,0) of a 3×3 board. -/
theorem C5_valid_adjacent_exact_witness :
    (get_valid_adjacent_fields 3 3 (0, 0)).Nodup ∧
    ∀ dr dc : Nat, (dr, dc) ∈ get_valid_adjacent_fields 3 3 (0, 0) ↔
      (dr < 3 ∧ dc < 3 ∧ ¬(dr = 0 ∧ dc = 0) ∧
       (dr = 0 ∨ dr + 1 = 0 ∨ dr = 0 + 1) ∧
       (dc = 0 ∨ dc + 1 = 0 ∨ dc = 0 + 1)) :=
  C5_valid_adjacent_exact 3 3 0 0 (by decide) (by decide)

/-- C7: after the lazy set-up completes (started from a board whose tallies
are all zero), every in-bounds cell's `adjacent_mines` equals the exact
number of mine cells among its valid neighbours as computed by the adjacency
resolver. -/
theorem C7_adjacent_mines_exact {stream : Nat → ℕ × ℕ} {fuel : Nat}
    {t t' : Termsweeper} (hninit : t.initialized = false)
    (hadj0 : ∀ c ∈ inBoundsCells t.rows t.columns,
      (t.board c).adjacent_mines = 0)
    (h : init_board stream fuel t = some t') :
    ∀ c ∈ inBoundsCells t'.rows t'.columns,
      (t'.board c).adjacent_mines =
        ((get_valid_adjacent_fields t'.rows t'.columns c).filter
          (fun l => (t'.board l).is_mine)).length :=
  (init_board_consistent hninit hadj0 h).1

/-- C7 witness: the centre cell of the 3×3 example set-up with mines at
(2,2) and (0,2). -/
theorem C7_adjacent_mines_exact_witness :
    (exInit.board (1, 1)).adjacent_mines =
      ((get_valid_adjacent_fields exInit.rows exInit.columns (1, 1)).filter
        (fun l => (exInit.board l).is_mine)).length :=
  @C7_adjacent_mines_exact exStream 2 exGame exInit rfl (by decide) rfl
    (1, 1) (by decide)

/-- C4: after the lazy set-up performed on the first reveal, the realized
number of mines is at most `rows*columns - 1 - |valid neighbours of the
cursor|` (the requested count is silently clamped to that bound), and
neither the cursor cell nor any of its valid neighbours holds a mine. -/
theorem C4_mine_clamp {stream : Nat → ℕ × ℕ} {fuel : Nat} {t t' : Termsweeper}
    (hninit : t.initialized = false)
    (hcb1 : t.cursor.1 < t.rows) (hcb2 : t.cursor.2 < t.columns)
    (hblank : ∀ c ∈ inBoundsCells t.rows t.columns,
      (t.board c).is_mine = false ∧ (t.board c).revealed = false ∧
        (t.board c).adjacent_mines = 0)
    (h : init_board stream fuel t = some t') :
    mineCount t' ≤ t.rows * t.columns - 1 -
      (get_valid_adjacent_fields t.rows t.columns t.cursor).length ∧
    (t'.board t.cursor).is_mine = false ∧
    ∀ d ∈ get_valid_adjacent_fields t.rows t.columns t.cursor,
      (t'.board d).is_mine = false := by
  obtain ⟨s1, s2, s3, s4, s5, s6, s7, s8, s9, s10, s11, s12, s13, s14⟩ :=
    init_board_spec hninit hcb1 hcb2 hblank h
  refine ⟨?_, s11, s12⟩
  rw [s10, Nat.mul_comm]
  exact s9

/-- C4 witness: the 3×3 example set-up. -/
theorem C4_mine_clamp_witness :
    mineCount exInit ≤ exGame.rows * exGame.columns - 1 -
      (get_valid_adjacent_fields exGame.rows exGame.columns exGame.cursor).length ∧
    (exInit.board exGame.cursor).is_mine = false ∧
    ∀ d ∈ get_valid_adjacent_fields exGame.rows exGame.columns exGame.cursor,
      (exInit.board d).is_mine = false :=
  @C4_mine_clamp exStream 2 exGame exInit rfl (by decide) (by decide) (by decide) rfl

/-- C10: the mine-placement rejection-sampling loop terminates: for a fair
draw stream (each cell keeps being drawn — the almost-sure behaviour of a
uniform sampler), the clamp of the set-up guarantees enough eligible cells,
so some finite number of iterations reaches the target and the set-up
answers. -/
theorem C10_sampling_terminates (stream : Nat → ℕ × ℕ) {t : Termsweeper}
    (hninit : t.initialized = false)
    (hcb1 : t.cursor.1 < t.rows) (hcb2 : t.cursor.2 < t.columns)
    (hfair : FairStream stream t.rows t.columns) :
    ∃ fuel t', init_board stream fuel t = some t' :=
  init_board_terminates stream hninit hcb1 hcb2 hfair

/-- C10 witness: a cyclic stream over the 2×2 grid, with more mines
requested than fit. -/
theorem C10_sampling_terminates_witness :
    ∃ fuel t', init_board cycleStream fuel (Termsweeper.new 2 2 3) = some t' := by
  refine C10_sampling_terminates cycleStream rfl (by decide) (by decide) ?_
  intro n c h1 h2
  refine ⟨(2 * c.1 + c.2 + 4 - n % 4) % 4, ?_⟩
  obtain ⟨a, b⟩ := c
  simp only [streamCell, cycleStream, Termsweeper.new, Prod.mk.injEq]
  simp only [Termsweeper.new] at h1 h2
  constructor <;> omega

/-- C8: once the game is over (lost or won), no command is accepted: every
key event answers `false` and leaves the state untouched, and so does any
sequence of key events. -/
theorem C8_terminal_no_op {t : Termsweeper}
    (hterm : t.game_state ≠ GameState.Playing) :
    (∀ (stream : Nat → ℕ × ℕ) (fuel : Nat) (key : Key),
      handle_event stream fuel key t = some (false, t)) ∧
    (∀ evs, run_events evs t = some t) := by
  have h1 : ∀ (stream : Nat → ℕ × ℕ) (fuel : Nat) (key : Key),
      handle_event stream fuel key t = some (false, t) := by
    intro stream fuel key
    unfold handle_event
    split
    · next hgs => exact absurd hgs hterm
    · rfl
  refine ⟨h1, ?_⟩
  intro evs
  induction evs with
  | nil => rfl
  | cons e es ih =>
    show run_events (e :: es) t = some t
    unfold run_events
    rw [h1 e.1 e.2.1 e.2.2]
    exact ih

/-- C8 witness: the finished 1×1 game ignores a reveal key and a whole list
of key events. -/
theorem C8_terminal_no_op_witness :
    (∀ (stream : Nat → ℕ × ℕ) (fuel : Nat) (key : Key),
      handle_event stream fuel key overGame = some (false, overGame)) ∧
    (∀ evs, run_events evs overGame = some overGame) :=
  C8_terminal_no_op (by intro h; cases h)

/-- C1 (corrected): the bookkeeping identity `fields_left_to_reveal =
number of unrevealed non-mine cells` holds in every reachable state that is
initialized and not lost; it fails at construction (the counter starts at 0
while the blank board has unrevealed non-mine cells) and after a loss
(`reveal_all` empties the unrevealed set without touching the counter). -/
theorem C1_fields_left_count {columns rows m : Nat} {t : Termsweeper}
    (hr : 0 < rows) (hc : 0 < columns)
    (h : Reachable (Termsweeper.new columns rows m) t)
    (hinit : t.initialized = true)
    (hgs : t.game_state ≠ GameState.GameOver) :
    t.fields_left_to_reveal = unrevealedNonMineCount t := by
  obtain ⟨hinv, -, -⟩ := reachable_inv (engineInv_new columns rows m hr hc) h
  exact (hinv.2.2.2 hinit).2.2.1 hgs

/-- C1 counterexample to the claim as stated: the freshly constructed 2×2
game with one mine requested is reachable (trivially), yet its counter is 0
while four unrevealed non-mine cells exist. -/
theorem C1_counterexample :
    Reachable (Termsweeper.new 2 2 1) (Termsweeper.new 2 2 1) ∧
    ¬((Termsweeper.new 2 2 1).fields_left_to_reveal =
      unrevealedNonMineCount (Termsweeper.new 2 2 1)) :=
  ⟨Relation.ReflTransGen.refl, by decide⟩

/-- C1 witness: the 1×1 game after one space key press is initialized, won,
and correctly counted. -/
theorem C1_fields_left_count_witness :
    Reachable (Termsweeper.new 1 1 0) wonGame ∧ wonGame.initialized = true ∧
    wonGame.game_state ≠ GameState.GameOver ∧
    wonGame.fields_left_to_reveal = unrevealedNonMineCount wonGame := by
  have hstep : handle_event oneStream 0 (Key.char ' ') oneGame =
      some (true, wonGame) := by
    have h1 : handle_event oneStream 0 (Key.char ' ') oneGame =
        reveal_core_with pop_last oneInit := by
      show reveal oneStream 0 oneGame = reveal_core_with pop_last oneInit
      unfold reveal reveal_with
      rw [show init_board oneStream 0 oneGame = some oneInit from rfl]
    rw [h1]
    have hget : get_field oneInit oneInit.cursor = some Cell.new := rfl
    rw [reveal_core_with_nonmine_eq pop_last hget rfl rfl rfl]
    rw [if_pos (show Cell.new.adjacent_mines = 0 from rfl)]
    rw [show get_valid_adjacent_fields oneInit.rows oneInit.columns
      oneInit.cursor = ([] : List (ℕ × ℕ)) from rfl]
    rw [floodPick_nil]
    rfl
  have hreach : Reachable (Termsweeper.new 1 1 0) wonGame :=
    Relation.ReflTransGen.single ⟨oneStream, 0, Key.char ' ', true, hstep⟩
  exact ⟨hreach, rfl, fun hcon => GameState.noConfusion hcon,
    C1_fields_left_count Nat.one_pos Nat.one_pos hreach rfl
      (fun hcon => GameState.noConfusion hcon)⟩

/-- C2 (corrected): on an already initialized game, revealing a marked or
already revealed cursor cell answers `false` and leaves the state exactly as
it was; on an uninitialized game the claim fails, because reveal first runs
the lazy set-up (changing the state) and only then takes the no-op exit. -/
theorem C2_reveal_noop {t : Termsweeper} (hinit : t.initialized = true)
    (hcb1 : t.cursor.1 < t.rows) (hcb2 : t.cursor.2 < t.columns)
    (h : (t.board t.cursor).marked = true ∨ (t.board t.cursor).revealed = true) :
    ∀ (stream : Nat → ℕ × ℕ) (fuel : Nat),
      reveal stream fuel t = some (false, t) := by
  intro stream fuel
  have hib : init_board stream fuel t = some t := by
    simp [init_board, hinit]
  show reveal_with pop_last stream fuel t = some (false, t)
  unfold reveal_with
  rw [hib]
  have hget : get_field t t.cursor = some (t.board t.cursor) := by
    rw [get_field, if_pos ⟨hcb1, hcb2⟩]
  exact reveal_core_with_noop pop_last hget h

/-- C2 counterexample to the claim as stated: on a fresh 2×2 game whose
cursor cell is marked, reveal answers `false` but does change the state — it
runs the lazy set-up, flipping `initialized` from `false` to `true`. -/
theorem C2_counterexample :
    (markedGame.board markedGame.cursor).marked = true ∧
    markedGame.initialized = false ∧
    (reveal oneStream 0 markedGame).map (fun r => (r.1, r.2.initialized)) =
      some (false, true) :=
  ⟨rfl, rfl, rfl⟩

/-- C2 witness: an initialized 1×1 game with a marked cursor cell is left
untouched by reveal. -/
theorem C2_reveal_noop_witness :
    markedInitGame.initialized = true ∧
    (markedInitGame.board markedInitGame.cursor).marked = true ∧
    reveal oneStream 0 markedInitGame = some (false, markedInitGame) :=
  ⟨rfl, rfl, C2_reveal_noop rfl (by decide) (by decide) (Or.inl rfl) oneStream 0⟩

/-- C9: in every reachable state the cursor is in bounds, and no accepted or
rejected command ever takes the out-of-range field-access branch: the only
way `handle_event` can fail to answer is the modelling artefact of the
sampling loop running out of fuel during the lazy set-up (`init_board`
returning `none` on an uninitialized board under the space key) — never an
out-of-bounds `get_field`/`set_field`. -/
theorem C9_no_panic {columns rows m : Nat} {t : Termsweeper}
    (hr : 0 < rows) (hc : 0 < columns)
    (h : Reachable (Termsweeper.new columns rows m) t) :
    (t.cursor.1 < rows ∧ t.cursor.2 < columns) ∧
    ∀ (stream : Nat → ℕ × ℕ) (fuel : Nat) (key : Key),
      handle_event stream fuel key t = none →
        t.initialized = false ∧ key = Key.char ' ' ∧
          init_board stream fuel t = none := by
  obtain ⟨hinv, hrw, hcw⟩ := reachable_inv (engineInv_new columns rows m hr hc) h
  have hr2 : t.rows = rows := hrw
  have hc2 : t.columns = columns := hcw
  refine ⟨⟨hr2 ▸ hinv.1, hc2 ▸ hinv.2.1⟩, ?_⟩
  intro stream fuel key hne
  unfold handle_event at hne
  split at hne
  · next hgs =>
    have hgf : get_field t t.cursor = some (t.board t.cursor) := by
      rw [get_field, if_pos ⟨hinv.1, hinv.2.1⟩]
    split_ifs at hne with h1 h2 h3 h4 h5 h6
    · unfold toggle_mark at hne
      split at hne
      · next heq => rw [hgf] at heq; cases heq
      · next f heq => split at hne <;> cases hne
    · by_cases hinit : t.initialized = true
      · exfalso
        have hib : init_board stream fuel t = some t := by
          simp [init_board, hinit]
        obtain ⟨r, hr2⟩ := reveal_core_with_total hinv hinit hgs pop_last
        have hsome : reveal stream fuel t = some r := by
          unfold reveal reveal_with
          rw [hib]
          exact hr2
        rw [hsome] at hne
        cases hne
      · have hinit' : t.initialized = false := by simpa using hinit
        refine ⟨hinit', h6, ?_⟩
        unfold reveal reveal_with at hne
        cases hib2 : init_board stream fuel t with
        | none => exact rfl
        | some t1 =>
          exfalso
          obtain ⟨hinv1, hinit1, hplay1, -, -⟩ := init_board_inv hinv hinit' hib2
          obtain ⟨r, hr2⟩ := reveal_core_with_total hinv1 hinit1 hplay1 pop_last
          rw [hib2] at hne
          have hne2 : reveal_core_with pop_last t1 = none := hne
          rw [hr2] at hne2
          cases hne2
  · cases hne

/-- C9 witness: the fresh 2×2 game, reachable trivially. -/
theorem C9_no_panic_witness :
    ((Termsweeper.new 2 2 1).cursor.1 < 2 ∧
      (Termsweeper.new 2 2 1).cursor.2 < 2) ∧
    ∀ (stream : Nat → ℕ × ℕ) (fuel : Nat) (key : Key),
      handle_event stream fuel key (Termsweeper.new 2 2 1) = none →
        (Termsweeper.new 2 2 1).initialized = false ∧ key = Key.char ' ' ∧
          init_board stream fuel (Termsweeper.new 2 2 1) = none :=
  C9_no_panic (by decide) (by decide) Relation.ReflTransGen.refl

/-- C6: in state `Playing` (on an initialized, invariant-respecting board),
revealing an unmarked, unrevealed mine cell moves the game to `GameOver` and
reveals every cell; revealing an unmarked, unrevealed non-mine cell either
leaves the counter non-zero and the state `Playing`, or brings it to 0,
moves the game to `Won` and reveals every cell; and no key event other than
the space (reveal) key ever leaves `Playing`. -/
theorem C6_terminal_transitions {t : Termsweeper}
    (hinv : EngineInv t) (hinit : t.initialized = true)
    (hplay : t.game_state = GameState.Playing) :
    (∀ (stream : Nat → ℕ × ℕ) (fuel : Nat),
      (t.board t.cursor).marked = false → (t.board t.cursor).revealed = false →
      (t.board t.cursor).is_mine = true →
      ∃ u, reveal stream fuel t = some (true, u) ∧
        u.game_state = GameState.GameOver ∧ ∀ l, (u.board l).revealed = true) ∧
    (∀ (stream : Nat → ℕ × ℕ) (fuel : Nat),
      (t.board t.cursor).marked = false → (t.board t.cursor).revealed = false →
      (t.board t.cursor).is_mine = false →
      ∃ u, reveal stream fuel t = some (true, u) ∧
        ((u.fields_left_to_reveal = 0 ∧ u.game_state = GameState.Won ∧
          ∀ l, (u.board l).revealed = true) ∨
         (u.fields_left_to_reveal ≠ 0 ∧ u.game_state = GameState.Playing))) ∧
    (∀ (stream : Nat → ℕ × ℕ) (fuel : Nat) (key : Key) (b : Bool)
        (u : Termsweeper), key ≠ Key.char ' ' →
      handle_event stream fuel key t = some (b, u) →
      u.game_state = GameState.Playing) := by
  have hc1 := hinv.1
  have hc2 := hinv.2.1
  obtain ⟨k1, k2, k3, -⟩ := hinv.2.2.2 hinit
  have hget : get_field t t.cursor = some (t.board t.cursor) := by
    rw [get_field, if_pos ⟨hc1, hc2⟩]
  have hrev_eq : ∀ (stream : Nat → ℕ × ℕ) (fuel : Nat),
      reveal stream fuel t = reveal_core_with pop_last t := by
    intro stream fuel
    have hib : init_board stream fuel t = some t := by simp [init_board, hinit]
    show reveal_with pop_last stream fuel t = _
    unfold reveal_with
    rw [hib]
  refine ⟨?_, ?_, ?_⟩
  · intro stream fuel hm hr hmine
    refine ⟨_, by rw [hrev_eq]; exact reveal_core_with_mine pop_last hget hm hr hmine,
      rfl, fun l => rfl⟩
  · intro stream fuel hm hr hmine
    obtain ⟨v, hv, q1, q2, q3, q4, q5, q6, q7, q8, q9, q10, q11, q12, q13, q14⟩ :=
      reveal_core_nonmine_spec pop_last hget hm hr hmine k1 k2
        (k3 (by rw [hplay]; exact fun hcon => GameState.noConfusion hcon))
    refine ⟨v, by rw [hrev_eq]; exact hv, ?_⟩
    rcases q14 with ⟨hgs, hne⟩ | ⟨hgs, hzero, hall⟩
    · exact Or.inr ⟨hne, by rw [hgs, hplay]⟩
    · exact Or.inl ⟨hzero, hgs, hall⟩
  · intro stream fuel key b u hkey hh
    unfold handle_event at hh
    split at hh
    · next hgs =>
      split_ifs at hh with h1 h2 h3 h4 h5 h6
      · have hu : u = (move_cursor_left t).2 :=
          ((Prod.mk.injEq _ _ _ _).mp (Option.some.inj hh)).2.symm
        subst hu
        have hgse : (move_cursor_left t).2.game_state = t.game_state := by
          unfold move_cursor_left; split <;> rfl
        rw [hgse, hplay]
      · have hu : u = (move_cursor_down t).2 :=
          ((Prod.mk.injEq _ _ _ _).mp (Option.some.inj hh)).2.symm
        subst hu
        have hgse : (move_cursor_down t).2.game_state = t.game_state := by
          unfold move_cursor_down; split <;> rfl
        rw [hgse, hplay]
      · have hu : u = (move_cursor_up t).2 :=
          ((Prod.mk.injEq _ _ _ _).mp (Option.some.inj hh)).2.symm
        subst hu
        have hgse : (move_cursor_up t).2.game_state = t.game_state := by
          unfold move_cursor_up; split <;> rfl
        rw [hgse, hplay]
      · have hu : u = (move_cursor_right t).2 :=
          ((Prod.mk.injEq _ _ _ _).mp (Option.some.inj hh)).2.symm
        subst hu
        have hgse : (move_cursor_right t).2.game_state = t.game_state := by
          unfold move_cursor_right; split <;> rfl
        rw [hgse, hplay]
      · rw [(toggle_mark_inv hinv hh).2.2.2, hplay]
      · have hu : u = t :=
          ((Prod.mk.injEq _ _ _ _).mp (Option.some.inj hh)).2.symm
        rw [hu, hplay]
    · have hu : u = t :=
        ((Prod.mk.injEq _ _ _ _).mp (Option.some.inj hh)).2.symm
      rw [hu, hplay]

/-- C6 witness: the 1×2 game with the cursor on its mine. -/
theorem C6_terminal_transitions_witness :
    (∀ (stream : Nat → ℕ × ℕ) (fuel : Nat),
      (mineGame.board mineGame.cursor).marked = false →
      (mineGame.board mineGame.cursor).revealed = false →
      (mineGame.board mineGame.cursor).is_mine = true →
      ∃ u, reveal stream fuel mineGame = some (true, u) ∧
        u.game_state = GameState.GameOver ∧ ∀ l, (u.board l).revealed = true) ∧
    (∀ (stream : Nat → ℕ × ℕ) (fuel : Nat),
      (mineGame.board mineGame.cursor).marked = false →
      (mineGame.board mineGame.cursor).revealed = false →
      (mineGame.board mineGame.cursor).is_mine = false →
      ∃ u, reveal stream fuel mineGame = some (true, u) ∧
        ((u.fields_left_to_reveal = 0 ∧ u.game_state = GameState.Won ∧
          ∀ l, (u.board l).revealed = true) ∨
         (u.fields_left_to_reveal ≠ 0 ∧ u.game_state = GameState.Playing))) ∧
    (∀ (stream : Nat → ℕ × ℕ) (fuel : Nat) (key : Key) (b : Bool)
        (u : Termsweeper), key ≠ Key.char ' ' →
      handle_event stream fuel key mineGame = some (b, u) →
      u.game_state = GameState.Playing) :=
  C6_terminal_transitions
    ⟨by decide, by decide, fun hcon => absurd hcon (by decide),
      fun _ => ⟨by unfold mines_consistent; decide,
        by unfold flood_closed; decide, by decide, by decide⟩⟩ rfl rfl

/-- C3 (corrected): revealing an unmarked, unrevealed zero-adjacency non-mine
cursor cell floods exactly the connected zero region and its boundary — every
flooded cell is a region cell, a mine, or has positive adjacency, and the
final revealed set is the same for every work-list order `pick` — unless
that flood completes the board, in which case the game is `Won` and every
cell (also outside the region and its boundary) is revealed. -/
theorem C3_flood_region {t : Termsweeper} (hinit : t.initialized = true)
    (hb1 : t.cursor.1 < t.rows) (hb2 : t.cursor.2 < t.columns)
    (hm : (t.board t.cursor).marked = false)
    (hr : (t.board t.cursor).revealed = false)
    (hmine : (t.board t.cursor).is_mine = false)
    (hadj : (t.board t.cursor).adjacent_mines = 0)
    (hcons : mines_consistent t) (hclosed : flood_closed t)
    (hcount : t.fields_left_to_reveal = unrevealedNonMineCount t) :
    (∀ l, FloodSet t t.cursor l →
      ZeroReach t t.cursor l ∨ (t.board l).is_mine = true ∨
        0 < (t.board l).adjacent_mines) ∧
    ∀ (pick : List (ℕ × ℕ) → Nat) (stream : Nat → ℕ × ℕ) (fuel : Nat),
      ∃ u, reveal_with pick stream fuel t = some (true, u) ∧
      ((¬(∀ l, l.1 < t.rows → l.2 < t.columns → (t.board l).is_mine = false →
          (t.board l).revealed = true ∨ FloodSet t t.cursor l) →
        u.game_state = t.game_state ∧
        ∀ l, (u.board l).revealed = true ↔
          ((t.board l).revealed = true ∨ FloodSet t t.cursor l)) ∧
       ((∀ l, l.1 < t.rows → l.2 < t.columns → (t.board l).is_mine = false →
          (t.board l).revealed = true ∨ FloodSet t t.cursor l) →
        u.game_state = GameState.Won ∧ ∀ l, (u.board l).revealed = true)) := by
  have hbnd : ∀ l, FloodSet t t.cursor l → l.1 < t.rows ∧ l.2 < t.columns := by
    intro l hl
    rcases hl with hz | ⟨c, hzc, hnb⟩
    · have h0 := zreach_zero hz
      exact ⟨h0.1, h0.2.1⟩
    · have h0 := zreach_zero hzc
      exact valid_adjacent_bounds h0.1 h0.2.1 hnb
  have hpart1 : ∀ l, FloodSet t t.cursor l →
      ZeroReach t t.cursor l ∨ (t.board l).is_mine = true ∨
        0 < (t.board l).adjacent_mines := by
    intro l hl
    rcases hl with hz | ⟨c, hzc, hnb⟩
    · exact Or.inl hz
    · by_cases hzl : zero_cell t l
      · exact Or.inl (ZeroReach.step c l hzc hnb hzl)
      · have hbl := hbnd l (Or.inr ⟨c, hzc, hnb⟩)
        by_cases hml : (t.board l).is_mine = true
        · exact Or.inr (Or.inl hml)
        · refine Or.inr (Or.inr ?_)
          rcases Nat.eq_zero_or_pos (t.board l).adjacent_mines with h0 | hpos
          · exact absurd ⟨hbl.1, hbl.2, by simpa using hml, h0⟩ hzl
          · exact hpos
  refine ⟨hpart1, ?_⟩
  intro pick stream fuel
  have hget : get_field t t.cursor = some (t.board t.cursor) := by
    rw [get_field, if_pos ⟨hb1, hb2⟩]
  set f := t.board t.cursor with hfdef
  set t2 := { set_field t t.cursor { f with revealed := true } with
    fields_left_to_reveal := t.fields_left_to_reveal - 1 } with ht2
  have hpt : ∀ l, t2.board l =
      if l = t.cursor then { f with revealed := true } else t.board l :=
    fun l => rfl
  have hmine2 : ∀ l, (t2.board l).is_mine = (t.board l).is_mine := by
    intro l
    rw [hpt]
    by_cases hl : l = t.cursor <;> simp [hl, hfdef]
  have hadj2 : ∀ l, (t2.board l).adjacent_mines = (t.board l).adjacent_mines := by
    intro l
    rw [hpt]
    by_cases hl : l = t.cursor <;> simp [hl, hfdef]
  have hmono2 : ∀ l, (t.board l).revealed = true → (t2.board l).revealed = true := by
    intro l h
    rw [hpt]
    by_cases hl : l = t.cursor <;> simp [hl, h]
  have hrev2 : ∀ l, (t2.board l).revealed = true →
      l = t.cursor ∨ (t.board l).revealed = true := by
    intro l h
    rw [hpt] at h
    by_cases hl : l = t.cursor
    · exact Or.inl hl
    · rw [if_neg hl] at h
      exact Or.inr h
  have hcurrev2 : (t2.board t.cursor).revealed = true := by
    rw [hpt]
    simp
  have hcons2 : mines_consistent t2 :=
    mines_consistent_transfer (t := t) (u := t2) rfl rfl hmine2 hadj2 hcons
  have hcount2 : t2.fields_left_to_reveal = unrevealedNonMineCount t2 := by
    have hcc : unrevealedNonMineCount t =
        unrevealedNonMineCount (set_field t t.cursor { f with revealed := true }) + 1 :=
      unrevealedNonMineCount_set_revealed t t.cursor { f with revealed := true }
        rfl hb1 hb2 hr hmine
    have ht2f : t2.fields_left_to_reveal = t.fields_left_to_reveal - 1 := rfl
    have ht2c : unrevealedNonMineCount t2 =
        unrevealedNonMineCount (set_field t t.cursor { f with revealed := true }) := rfl
    have hpos : 0 < unrevealedNonMineCount t := by
      have : t.cursor ∈ (inBoundsCells t.rows t.columns).filter
          (fun l => (t.board l).revealed = false ∧ (t.board l).is_mine = false) :=
        Finset.mem_filter.mpr ⟨mem_inBoundsCells.mpr ⟨hb1, hb2⟩, hr, hmine⟩
      exact Finset.card_pos.mpr ⟨t.cursor, this⟩
    omega
  have hcurzero : zero_cell t t.cursor := ⟨hb1, hb2, hmine, hadj⟩
  obtain ⟨t3, hu, o1, o2, o3, o4, o5, o6, o7, o8, o9, o10, o11, o12, o13, o14⟩ :=
    floodPick_spec pick t2 (get_valid_adjacent_fields t.rows t.columns t.cursor)
      (FloodSet t t.cursor)
      (fun w hw => valid_adjacent_bounds hb1 hb2 hw)
      (fun w hw => by
        rw [hmine2]
        exact zero_cell_neighbors_nonmine hcons hb1 hb2 hadj w hw)
      hcons2
      (fun w hw => Or.inr ⟨t.cursor, ZeroReach.refl hcurzero, hw⟩)
      (fun c hP hcm hca d hd => by
        rw [hmine2] at hcm
        rw [hadj2] at hca
        have hcb := hbnd c hP
        have hcz : zero_cell t c := ⟨hcb.1, hcb.2, hcm, hca⟩
        have hzr : ZeroReach t t.cursor c := by
          rcases hP with hz | ⟨c0, hzc0, hnb0⟩
          · exact hz
          · exact ZeroReach.step c0 c hzc0 hnb0 hcz
        exact Or.inr ⟨c, hzr, hd⟩)
      (fun c hc1 hc2 hc3 hc4 hc5 d hd => by
        by_cases hcc : c = t.cursor
        · subst hcc
          exact Or.inr hd
        · have hct : (t.board c).revealed = true := by
            rw [hpt, if_neg hcc] at hc3
            exact hc3
          rw [hmine2] at hc4
          rw [hadj2] at hc5
          refine Or.inl (hmono2 d ?_)
          exact hclosed c (mem_inBoundsCells.mpr ⟨hc1, hc2⟩) hct hc4 hc5 d hd)
  -- the exact revealed set of the post-flood state t3
  have hrows3 : t3.rows = t.rows := o1
  have hcols3 : t3.columns = t.columns := o2
  have hmine3 : ∀ l, (t3.board l).is_mine = (t.board l).is_mine :=
    fun l => (o7 l).trans (hmine2 l)
  have hadj3 : ∀ l, (t3.board l).adjacent_mines = (t.board l).adjacent_mines :=
    fun l => (o9 l).trans (hadj2 l)
  have hzr_rev : ∀ l, ZeroReach t t.cursor l → (t3.board l).revealed = true := by
    intro l hl
    induction hl with
    | refl h0 => exact o10 t.cursor hcurrev2
    | step c d hc hnb hzd ih =>
      have hcz : zero_cell t c := zreach_zero hc
      have := o13 c (mem_inBoundsCells.mpr
        ⟨hrows3 ▸ hcz.1, hcols3 ▸ hcz.2.1⟩) ih
        (by rw [hmine3]; exact hcz.2.2.1) (by rw [hadj3]; exact hcz.2.2.2)
      exact this d (by rw [hrows3, hcols3]; exact hnb)
  have hchar : ∀ l, (t3.board l).revealed = true ↔
      ((t.board l).revealed = true ∨ FloodSet t t.cursor l) := by
    intro l
    constructor
    · intro h
      rcases o12 l h with h2 | h2
      · rcases hrev2 l h2 with h3 | h3
        · exact Or.inr (Or.inl (by rw [h3]; exact ZeroReach.refl hcurzero))
        · exact Or.inl h3
      · exact Or.inr h2
    · intro h
      rcases h with h | h
      · exact o10 l (hmono2 l h)
      · rcases hpart1 l h with hz | hrest
        · exact hzr_rev l hz
        · rcases h with hz | ⟨c, hzc, hnb⟩
          · exact hzr_rev l hz
          · have hcz : zero_cell t c := zreach_zero hzc
            have hcr : (t3.board c).revealed = true := hzr_rev c hzc
            have := o13 c (mem_inBoundsCells.mpr
              ⟨hrows3 ▸ hcz.1, hcols3 ▸ hcz.2.1⟩) hcr
              (by rw [hmine3]; exact hcz.2.2.1) (by rw [hadj3]; exact hcz.2.2.2)
            exact this l (by rw [hrows3, hcols3]; exact hnb)
  have hcnt3 : t3.fields_left_to_reveal = unrevealedNonMineCount t3 := o14 hcount2
  have hcoviff : t3.fields_left_to_reveal = 0 ↔
      (∀ l, l.1 < t.rows → l.2 < t.columns → (t.board l).is_mine = false →
        (t.board l).revealed = true ∨ FloodSet t t.cursor l) := by
    rw [hcnt3]
    unfold unrevealedNonMineCount
    rw [Finset.card_eq_zero, Finset.filter_eq_empty_iff]
    constructor
    · intro hemp l hl1 hl2 hlm
      have hli : l ∈ inBoundsCells t3.rows t3.columns :=
        mem_inBoundsCells.mpr ⟨hrows3 ▸ hl1, hcols3 ▸ hl2⟩
      have := hemp hli
      rw [hmine3 l] at this
      have hlr : (t3.board l).revealed = true := by
        by_cases hx : (t3.board l).revealed = true
        · exact hx
        · exact absurd ⟨by simpa using hx, hlm⟩ this
      exact (hchar l).mp hlr
    · intro hall l hli
      rw [mem_inBoundsCells, hrows3, hcols3] at hli
      intro hcon
      rw [hmine3 l] at hcon
      have := hall l hli.1 hli.2 hcon.2
      have hlr := (hchar l).mpr this
      rw [hlr] at hcon
      exact Bool.noConfusion hcon.1
  -- run the reveal
  have hib : init_board stream fuel t = some t := by simp [init_board, hinit]
  have hrun : reveal_with pick stream fuel t = reveal_core_with pick t := by
    unfold reveal_with
    rw [hib]
  have hstep : reveal_core_with pick t =
      (if t3.fields_left_to_reveal = 0 then
        some (true, reveal_all { t3 with game_state := GameState.Won })
      else some (true, t3)) := by
    rw [reveal_core_with_nonmine_eq pick hget hm hr hmine]
    rw [if_pos hadj]
    rw [hu]
  by_cases hz : t3.fields_left_to_reveal = 0
  · refine ⟨reveal_all { t3 with game_state := GameState.Won },
      by rw [hrun, hstep, if_pos hz], ?_, ?_⟩
    · intro hcon
      exact absurd (hcoviff.mp hz) hcon
    · intro _
      exact ⟨rfl, fun l => rfl⟩
  · refine ⟨t3, by rw [hrun, hstep, if_neg hz], ?_, ?_⟩
    · intro _
      exact ⟨o6, hchar⟩
    · intro hall
      exact absurd (hcoviff.mpr hall) hz

/-- C3 counterexample to the claim as stated: on the 1×3 line game the flood
region of the cursor is {(0,0)} with boundary {(0,1)}, yet the reveal also
shows the mine at (0,2), because completing all non-mine cells wins the game
and the win reveals the whole board. -/
theorem C3_counterexample :
    ∃ u, reveal_core_with pop_last lineGame = some (true, u) ∧
      (u.board (0, 2)).revealed = true ∧
      (lineGame.board (0, 2)).is_mine = true ∧
      ¬ FloodSet lineGame lineGame.cursor (0, 2) := by
  have hget0 : get_field lineGame lineGame.cursor = some Cell.new := rfl
  have h2 : floodPick pop_last lineMid [(0, 1)] = some lineMid2 := by
    rw [floodPick_reveal pop_last lineMid (0, 1) []
      { Cell.new with adjacent_mines := 1 } rfl rfl]
    show floodPick pop_last lineMid2 [] = some lineMid2
    exact floodPick_nil pop_last lineMid2
  have hA : reveal_core_with pop_last lineGame =
      (match floodPick pop_last lineMid [(0, 1)] with
       | none => none
       | some t3 =>
         if t3.fields_left_to_reveal = 0 then
           some (true, reveal_all { t3 with game_state := GameState.Won })
         else some (true, t3)) := by
    rw [reveal_core_with_nonmine_eq pop_last hget0 rfl rfl rfl]
    rw [if_pos (show Cell.new.adjacent_mines = 0 from rfl)]
    rfl
  have hB : reveal_core_with pop_last lineGame =
      some (true, reveal_all { lineMid2 with game_state := GameState.Won }) := by
    rw [hA, h2]
    rfl
  refine ⟨_, hB, rfl, rfl, ?_⟩
  intro hfs
  have hz : ∀ c, ZeroReach lineGame lineGame.cursor c → c = (0, 0) := by
    intro c hc
    have h0 := zreach_zero hc
    obtain ⟨a, b⟩ := c
    obtain ⟨ha, hb, hm1, ha1⟩ := h0
    have ha' : a < 1 := ha
    have hb' : b < 3 := hb
    have ha0 : a = 0 := Nat.lt_one_iff.mp ha'
    subst ha0
    interval_cases b
    · rfl
    · exact absurd ha1 (by decide)
    · exact absurd hm1 (by decide)
  rcases hfs with hzr | ⟨c, hzr, hnb⟩
  · exact absurd (hz _ hzr) (by decide)
  · have hc0 := hz c hzr
    subst hc0
    exact absurd hnb (by decide)

/-- C3 witness: the 1×3 line game. -/
theorem C3_flood_region_witness :
    (∀ l, FloodSet lineGame lineGame.cursor l →
      ZeroReach lineGame lineGame.cursor l ∨
        (lineGame.board l).is_mine = true ∨
        0 < (lineGame.board l).adjacent_mines) ∧
    ∀ (pick : List (ℕ × ℕ) → Nat) (stream : Nat → ℕ × ℕ) (fuel : Nat),
      ∃ u, reveal_with pick stream fuel lineGame = some (true, u) ∧
      ((¬(∀ l, l.1 < lineGame.rows → l.2 < lineGame.columns →
          (lineGame.board l).is_mine = false →
          (lineGame.board l).revealed = true ∨ FloodSet lineGame lineGame.cursor l) →
        u.game_state = lineGame.game_state ∧
        ∀ l, (u.board l).revealed = true ↔
          ((lineGame.board l).revealed = true ∨ FloodSet lineGame lineGame.cursor l)) ∧
       ((∀ l, l.1 < lineGame.rows → l.2 < lineGame.columns →
          (lineGame.board l).is_mine = false →
          (lineGame.board l).revealed = true ∨ FloodSet lineGame lineGame.cursor l) →
        u.game_state = GameState.Won ∧ ∀ l, (u.board l).revealed = true)) :=
  C3_flood_region rfl (by decide) (by decide) rfl rfl rfl rfl
    (by unfold mines_consistent; decide) (by unfold flood_closed; decide)
    (by decide)
